import Mathlib

/-!
Shallow embedding of `py_iam_expand` (src/py_iam_expand/actions.py) and of the
policy rewriter described by the specification, together with theorems settling
the specification claims.

Strings are modelled as lists of Unicode code points (`List Nat`); Python's
`str.lower` is modelled on the ASCII range, which covers every catalog key,
action name and pattern in scope.
-/

namespace PyIamExpand

instance {ε α : Type} [DecidableEq ε] [DecidableEq α] : DecidableEq (Except ε α) :=
  fun a b =>
    match a, b with
    | .ok x, .ok y => decidable_of_iff (x = y) (by simp)
    | .error x, .error y => decidable_of_iff (x = y) (by simp)
    | .ok _, .error _ => isFalse (fun h => Except.noConfusion h)
    | .error _, .ok _ => isFalse (fun h => Except.noConfusion h)

/-- Strings as lists of code points. -/
abbrev Str := List Nat

/-- Code points of a Lean string literal, for writing concrete inputs. -/
def str (s : String) : Str := s.data.map Char.toNat

/-- Python `str.lower` on one code point (ASCII range). -/
def lowerChar (c : Nat) : Nat := if 65 ≤ c ∧ c ≤ 90 then c + 32 else c

/-- Python `str.lower`. -/
def lowerStr (s : Str) : Str := s.map lowerChar

/-- One member of an `fnmatch` character class: a literal code point or an
inclusive code-point range. -/
inductive ClassItem where
  | single : Nat → ClassItem
  | range : Nat → Nat → ClassItem

/-- One token of an `fnmatch` pattern: `*`, `?`, a literal character, or a
(possibly negated) character class. -/
inductive GlobTok where
  | star : GlobTok
  | anyOne : GlobTok
  | lit : Nat → GlobTok
  | cls : Bool → List ClassItem → GlobTok

/-- The members of a character class, as `fnmatch.translate` reads its
content: an `x-y` triple forms the inclusive range `x..y` (code 45 is `-`),
anything else is a literal member, and a `-` at the start or end of the
content is a literal member.  An inverted range (`x > y`) matches nothing —
extensionally what `translate` does when it deletes such a range's endpoints. -/
def classItems : List Nat → List ClassItem
  | x :: 45 :: y :: rest => .range x y :: classItems rest
  | x :: rest => .single x :: classItems rest
  | [] => []

/-- Whether a character satisfies one class member. -/
def classItemMatch (c : Nat) : ClassItem → Bool
  | .single x => x == c
  | .range x y => decide (x ≤ c) && decide (c ≤ y)

/-- Whether a character is accepted by a (possibly negated) class. -/
def classMatch (neg : Bool) (items : List ClassItem) (c : Nat) : Bool :=
  if neg then !(items.any (classItemMatch c)) else items.any (classItemMatch c)

/-- Tokenize an `fnmatch` pattern, mirroring `fnmatch.translate`'s scan:
`*` (42) and `?` (63) are wildcards; `[` (91) opens a character class whose
content runs to the first `]` (93), except that a `]` immediately after the
`[`, or after a leading `!` (33), is an ordinary member; a leading `!` negates
the class; a `[` with no closing `]` is a literal character and the characters
it swallowed are re-read as ordinary pattern text (no `]` remains, so none of
them can open a class).  The first argument is the reversed content of the
class currently open, `none` at top level. -/
def globToksAux : Option (List Nat) → List Nat → List GlobTok
  | none, [] => []
  | none, 42 :: p => .star :: globToksAux none p
  | none, 63 :: p => .anyOne :: globToksAux none p
  | none, 91 :: p => globToksAux (some []) p
  | none, c :: p => .lit c :: globToksAux none p
  | some acc, [] =>
    .lit 91 :: acc.reverse.map
      (fun c => if c = 42 then .star else if c = 63 then .anyOne else .lit c)
  | some acc, 93 :: p =>
    if acc = [] ∨ acc = [33] then globToksAux (some (93 :: acc)) p
    else
      match acc.reverse with
      | 33 :: content => .cls true (classItems content) :: globToksAux none p
      | content => .cls false (classItems content) :: globToksAux none p
  | some acc, c :: p => globToksAux (some (c :: acc)) p

/-- Match a tokenized `fnmatch` pattern against a whole string: `*` matches
any run of characters, `?` exactly one, a class exactly one. -/
def matchToks : List GlobTok → List Nat → Bool
  | [], s => s.isEmpty
  | .star :: p, s => s.tails.any (fun t => matchToks p t)
  | .anyOne :: _, [] => false
  | .anyOne :: p, _ :: s => matchToks p s
  | .lit _ :: _, [] => false
  | .lit c :: p, d :: s => c == d && matchToks p s
  | .cls _ _ :: _, [] => false
  | .cls neg items :: p, d :: s => classMatch neg items d && matchToks p s

/-- `fnmatch.fnmatchcase(s, p)` (no case folding, anchored at both ends),
with `*`, `?` and `[...]`/`[!...]` character classes. -/
def globMatch (p s : Str) : Bool := matchToks (globToksAux none p) s

/-- Python `s.split(c, 1)`: split at the first occurrence of `c`;
`none` when `c` is absent. -/
def splitOnFirst (c : Nat) : Str → Option (Str × Str)
  | [] => none
  | d :: rest =>
    if d = c then some ([], rest)
    else (splitOnFirst c rest).map (fun q => (d :: q.1, q.2))

/-- Adding one element to a Python set, modelled on lists: a no-op when the
element is already present. -/
def insertS (s : List Str) (x : Str) : List Str := if x ∈ s then s else s ++ [x]

/-- Lexicographic (code-point) order on strings: Python's string `<=`,
which `sorted` uses. -/
def lexLe : Str → Str → Bool
  | [], _ => true
  | _ :: _, [] => false
  | a :: s, b :: t => decide (a < b) || (a == b && lexLe s t)

/-- `lexLe` as a relation, for `List.insertionSort`. -/
def strLe (a b : Str) : Prop := lexLe a b = true

instance : DecidableRel strLe := fun a b => by unfold strLe; infer_instance

instance : IsTotal Str strLe where
  total := by
    intro a
    induction a with
    | nil => intro b; exact Or.inl rfl
    | cons x s ih =>
      intro b
      cases b with
      | nil => exact Or.inr rfl
      | cons y t =>
        rcases Nat.lt_trichotomy x y with h | h | h
        · left; simp [strLe, lexLe, h]
        · subst h
          rcases ih t with h | h
          · left; simp [strLe, lexLe] at h ⊢; exact h
          · right; simp [strLe, lexLe] at h ⊢; exact h
        · right; simp [strLe, lexLe, h]

instance : IsTrans Str strLe where
  trans := by
    intro a
    induction a with
    | nil => intro b c _ _; rfl
    | cons x s ih =>
      intro b c hab hbc
      cases b with
      | nil => simp [strLe, lexLe] at hab
      | cons y t =>
        cases c with
        | nil => simp [strLe, lexLe] at hbc
        | cons z u =>
          simp only [strLe, lexLe, Bool.or_eq_true, Bool.and_eq_true,
            decide_eq_true_eq, beq_iff_eq] at hab hbc ⊢
          rcases hab with h1 | ⟨rfl, h1⟩
          · rcases hbc with h2 | ⟨rfl, h2⟩
            · exact Or.inl (Nat.lt_trans h1 h2)
            · exact Or.inl h1
          · rcases hbc with h2 | ⟨rfl, h2⟩
            · exact Or.inl h2
            · exact Or.inr ⟨rfl, ih t u h1 h2⟩

/-- The catalog adapter (the `iamdata` package): the list of service keys and
each service's action list, read-only. -/
structure Catalog where
  serviceKeys : List Str
  actionsFor : Str → List Str

/-- `InvalidActionPatternError(pattern, message)` from actions.py. -/
structure InvalidActionPatternError where
  pattern : Str
  message : Str
deriving DecidableEq

/-- The missing-colon message of actions.py line 41. -/
def msgMissingColon : Str := str "Must be 'service:action' or '*'. Missing colon."

/-- The message of actions.py line 57.  The empty-part error raised at
lines 46-52 is an `InvalidActionPatternError`, which subclasses `ValueError`,
so the `except ValueError` at line 55 catches it inside the `try` and
re-raises an `InvalidActionPatternError` with the same pattern and this
message; the message of lines 49-51 never escapes. -/
def msgUnexpected : Str := str "Unexpected parsing error."

/-- `f"{service_key}:{action_name}"`. -/
def mkAction (k a : Str) : Str := k ++ 58 :: a

/-- Python `d[k] = v` on an association list: replace in place, else append
(dict insertion-order semantics). -/
def assocUpd : List (Str × Str) → Str → Str → List (Str × Str)
  | [], k, v => [(k, v)]
  | (k', v') :: rest, k, v =>
    if k' = k then (k, v) :: rest else (k', v') :: assocUpd rest k v

/-- Python `k in d` / `d[k]` on an association list. -/
def assocFind : List (Str × Str) → Str → Option Str
  | [], _ => none
  | (k', v) :: rest, k => if k' = k then some v else assocFind rest k

/-- `lower_to_original_key = {key.lower(): key for key in all_service_keys}`
(actions.py line 61). -/
def lowerToOriginal (keys : List Str) : List (Str × Str) :=
  keys.foldl (fun d key => assocUpd d (lowerStr key) key) []

/-- Target-service resolution, actions.py lines 60-71: `*` takes every key;
a pattern with wildcard metacharacters takes the keys whose lower-cased form
glob-matches; otherwise an exact case-insensitive lookup, with no match giving
the empty list. -/
def svcTargets (C : Catalog) (sp : Str) : List Str :=
  if sp = [42] then C.serviceKeys
  else if 42 ∈ sp ∨ 63 ∈ sp then
    (lowerToOriginal C.serviceKeys).filterMap
      (fun kv => if globMatch sp kv.1 then some kv.2 else none)
  else
    match assocFind (lowerToOriginal C.serviceKeys) sp with
    | some orig => [orig]
    | none => []

/-- One iteration of the service loop, actions.py lines 76-92, adding this
service's matches to the set `acc`.  In the exact-name branch the Python loop
`break`s after the first match, which `List.find?` models. -/
def addForService (C : Catalog) (ap : Str) (acc : List Str) (k : Str) : List Str :=
  if C.actionsFor k = [] then acc
  else if ap = [42] then
    (C.actionsFor k).foldl (fun ac a => insertS ac (mkAction k a)) acc
  else if 42 ∈ ap ∨ 63 ∈ ap then
    (C.actionsFor k).foldl
      (fun ac a => if globMatch ap (lowerStr a) then insertS ac (mkAction k a) else ac)
      acc
  else
    match (C.actionsFor k).find? (fun a => lowerStr a == ap) with
    | some a => insertS acc (mkAction k a)
    | none => acc

/-- Body of `_expand_single_pattern` after parsing, actions.py lines 60-94:
resolve target services from the lowered service part, return the empty set
when there are none, else accumulate each target service's matches. -/
def expandCore (C : Catalog) (sp ap : Str) : List Str :=
  if svcTargets C sp = [] then []
  else (svcTargets C sp).foldl (addForService C ap) []

/-- `_expand_single_pattern`, actions.py lines 30-94.  A lone `*` stands for
service part `*` and action part `*`; otherwise the pattern must contain a
colon and both sides of the first colon must be non-empty, and both parts are
lower-cased for matching.  The empty-part error is raised inside the `try`
and, being a `ValueError` subclass, is caught by the `except ValueError` at
line 55 and re-raised with the same pattern and the `msgUnexpected` message —
that re-raised error is the one this branch models. -/
def expand_single_pattern (C : Catalog) (p : Str) :
    Except InvalidActionPatternError (List Str) :=
  if p = [42] then .ok (expandCore C [42] [42])
  else
    match splitOnFirst 58 p with
    | none => .error ⟨p, msgMissingColon⟩
    | some q =>
      if q.1 = [] ∨ q.2 = [] then .error ⟨p, msgUnexpected⟩
      else .ok (expandCore C (lowerStr q.1) (lowerStr q.2))

/-- The pattern loop shared by `expand_actions` and `invert_actions`
(actions.py lines 116-119 and 145-148): expand each pattern in order into the
accumulating set, propagating the first error. -/
def collectExpanded (C : Catalog) :
    List Str → List Str → Except InvalidActionPatternError (List Str)
  | acc, [] => .ok acc
  | acc, p :: rest =>
    match expand_single_pattern C p with
    | .error e => .error e
    | .ok s => collectExpanded C (s.foldl insertS acc) rest

/-- `expand_actions`, actions.py lines 97-121, on an already-normalized list of
patterns: union the per-pattern expansions and return them sorted. -/
def expand_actions (C : Catalog) (ps : List Str) :
    Except InvalidActionPatternError (List Str) :=
  match collectExpanded C [] ps with
  | .error e => .error e
  | .ok s => .ok (List.insertionSort strLe s)

/-- `_get_all_actions`, actions.py lines 18-27: every `service:action` pair of
the catalog, skipping services with an empty action list. -/
def get_all_actions (C : Catalog) : List Str :=
  C.serviceKeys.foldl
    (fun acc k =>
      if C.actionsFor k = [] then acc
      else (C.actionsFor k).foldl (fun ac a => insertS ac (mkAction k a)) acc)
    []

/-- `invert_actions`, actions.py lines 124-153: the excluded set is collected
first; only on success is the full catalog enumerated and subtracted. -/
def invert_actions (C : Catalog) (ps : List Str) :
    Except InvalidActionPatternError (List Str) :=
  match collectExpanded C [] ps with
  | .error e => .error e
  | .ok excl =>
    .ok (List.insertionSort strLe
      ((get_all_actions C).filter (fun x => decide (x ∉ excl))))

/-- The catalog used throughout the repository's test suite (tests/conftest.py). -/
def mockCatalog : Catalog where
  serviceKeys := [str "S3", str "EC2", str "IAM", str "STS"]
  actionsFor := fun k =>
    if k = str "S3" then [str "GetObject", str "GetBucket"]
    else if k = str "EC2" then [str "DescribeInstances", str "DescribeVolumes"]
    else if k = str "IAM" then [str "PassRole", str "CreateAccessKey", str "ListAccessKeys"]
    else if k = str "STS" then [str "AssumeRole"]
    else []

/-- A catalog in which one service has two action names equal up to case,
exhibiting the effect of the `break` in the exact-match loop. -/
def dupCatalog : Catalog where
  serviceKeys := [str "S3"]
  actionsFor := fun k =>
    if k = str "S3" then [str "GetObject", str "GETOBJECT"] else []

/-- A catalog identical to the test-suite one except for an extra service
`Empty` that exposes no actions. -/
def emptyServiceCatalog : Catalog where
  serviceKeys := [str "S3", str "Empty"]
  actionsFor := fun k =>
    if k = str "S3" then [str "GetObject", str "GetBucket"] else []

/-- Modelled from the spec: the `InvalidHandlingPolicy` enumeration
(`InvalidActionHandling` in the test suite); the module implementing it is not
among the sources at hand, only its tests are. Spec sections 3 and 4.2. -/
inductive InvalidActionHandling where
  | raiseError
  | keep
  | remove
deriving DecidableEq

/-- Modelled from the spec (section 4.2): the pattern loop of the policy-aware
`expand`.  A pattern the engine rejects is, per policy, propagated immediately
(`raiseError`, stopping all further processing), inserted literally and
unexpanded into the result set (`keep`), or skipped (`remove`). -/
def collectWithPolicy (C : Catalog) (pol : InvalidActionHandling) :
    List Str → List Str → Except InvalidActionPatternError (List Str)
  | acc, [] => .ok acc
  | acc, p :: rest =>
    match expand_single_pattern C p with
    | .ok s => collectWithPolicy C pol (s.foldl insertS acc) rest
    | .error e =>
      match pol with
      | .raiseError => .error e
      | .keep => collectWithPolicy C pol (insertS acc p) rest
      | .remove => collectWithPolicy C pol acc rest

/-- Modelled from the spec (section 4.2): the policy-aware `expand`, defaulting
to `raiseError`; the union of per-pattern results is returned as a sorted,
deduplicated sequence. -/
def expand_actions_p (C : Catalog) (pol : InvalidActionHandling) (ps : List Str) :
    Except InvalidActionPatternError (List Str) :=
  match collectWithPolicy C pol [] ps with
  | .error e => .error e
  | .ok s => .ok (List.insertionSort strLe s)

/-- Modelled from the spec (section 3, PolicyDocument): a JSON-like value;
objects are ordered field lists, so field order is part of the value. -/
inductive JVal where
  | jstr : Str → JVal
  | jnum : Int → JVal
  | jbool : Bool → JVal
  | jnull : JVal
  | jarr : List JVal → JVal
  | jobj : List (Str × JVal) → JVal

/-- Modelled from the spec (sections 4.3 and 7): the policy rewriter's errors —
shape/type errors name the statement index (when inside a statement) and the
offending field; a propagated pattern error is wrapped with its statement
index as context. -/
inductive PolicyError where
  | shapeError : Option Nat → Str → PolicyError
  | patternError : Nat → InvalidActionPatternError → PolicyError

/-- Modelled from the spec (section 4.3): an `Action`/`NotAction` value must be
a single pattern string or a sequence of pattern strings; any other shape is a
type error. -/
def asPatternList : JVal → Option (List Str)
  | .jstr s => some [s]
  | .jarr l => l.mapM (fun v => match v with | .jstr s => some s | _ => none)
  | _ => none

/-- Modelled from the spec (section 4.3): rewrite one statement's field list.
`Action` and `NotAction` entries are replaced in place by the sorted expansion
of their patterns under their respective policies; all other entries pass
through unchanged, in order. -/
def rewriteStmt (C : Catalog) (hA hNA : InvalidActionHandling) (i : Nat) :
    List (Str × JVal) → Except PolicyError (List (Str × JVal))
  | [] => .ok []
  | (key, v) :: rest =>
    if key = str "Action" ∨ key = str "NotAction" then
      match asPatternList v with
      | none => .error (.shapeError (some i) key)
      | some pats =>
        match expand_actions_p C (if key = str "Action" then hA else hNA) pats with
        | .error e => .error (.patternError i e)
        | .ok l =>
          match rewriteStmt C hA hNA i rest with
          | .error e => .error e
          | .ok rest2 => .ok ((key, .jarr (l.map JVal.jstr)) :: rest2)
    else
      match rewriteStmt C hA hNA i rest with
      | .error e => .error e
      | .ok rest2 => .ok ((key, v) :: rest2)

/-- Modelled from the spec (section 4.3): rewrite the statement sequence,
numbering statements from `i`; a non-object statement is a shape error. -/
def rewriteStmts (C : Catalog) (hA hNA : InvalidActionHandling) (i : Nat) :
    List JVal → Except PolicyError (List JVal)
  | [] => .ok []
  | .jobj fs :: rest =>
    match rewriteStmt C hA hNA i fs with
    | .error e => .error e
    | .ok fs2 =>
      match rewriteStmts C hA hNA (i + 1) rest with
      | .error e => .error e
      | .ok rest2 => .ok (.jobj fs2 :: rest2)
  | _ :: _ => .error (.shapeError (some i) (str "Statement"))

/-- Modelled from the spec (section 4.3): rewrite a document's top-level field
list, transforming each `Statement` entry (which must hold a sequence) and
passing every other entry through unchanged, in order. -/
def rewriteDoc (C : Catalog) (hA hNA : InvalidActionHandling) :
    List (Str × JVal) → Except PolicyError (List (Str × JVal))
  | [] => .ok []
  | (key, v) :: rest =>
    if key = str "Statement" then
      match v with
      | .jarr stmts =>
        match rewriteStmts C hA hNA 0 stmts with
        | .error e => .error e
        | .ok stmts2 =>
          match rewriteDoc C hA hNA rest with
          | .error e => .error e
          | .ok rest2 => .ok ((key, .jarr stmts2) :: rest2)
      | _ => .error (.shapeError none (str "Statement"))
    else
      match rewriteDoc C hA hNA rest with
      | .error e => .error e
      | .ok rest2 => .ok ((key, v) :: rest2)

/-- Modelled from the spec (section 4.3): `expand_policy_actions(document,
invalid_handling_action = remove, invalid_handling_notaction = keep)`; the
policies are explicit parameters here, and a document without a `Statement`
field is a shape error. -/
def expand_policy_actions (C : Catalog) (hA hNA : InvalidActionHandling)
    (doc : List (Str × JVal)) : Except PolicyError (List (Str × JVal)) :=
  if (doc.map Prod.fst).contains (str "Statement") then rewriteDoc C hA hNA doc
  else .error (.shapeError none (str "Statement"))

/-- The sample policy document of the test suite (tests/conftest.py), first
statement only, as a `JVal` field list. -/
def samplePolicyDoc : List (Str × JVal) :=
  [(str "Version", .jstr (str "2012-10-17")),
   (str "Statement", .jarr
     [.jobj [(str "Effect", .jstr (str "Allow")),
             (str "Action", .jstr (str "s3:Get*")),
             (str "Resource", .jstr (str "*"))]])]

/-- The rewritten form of `samplePolicyDoc`: only `Action` changes, into the
sorted expansion. -/
def samplePolicyDocOut : List (Str × JVal) :=
  [(str "Version", .jstr (str "2012-10-17")),
   (str "Statement", .jarr
     [.jobj [(str "Effect", .jstr (str "Allow")),
             (str "Action", .jarr [.jstr (str "S3:GetBucket"),
                                   .jstr (str "S3:GetObject")]),
             (str "Resource", .jstr (str "*"))]])]

/-! ### Basic lemmas about the string model -/

theorem lowerChar_eq_low_iff {c t : Nat} (ht : t < 65) : lowerChar c = t ↔ c = t := by
  unfold lowerChar; split <;> omega

theorem lowerChar_lowerChar (c : Nat) : lowerChar (lowerChar c) = lowerChar c := by
  unfold lowerChar
  split
  · split <;> omega
  · rfl

theorem lowerStr_lowerStr (s : Str) : lowerStr (lowerStr s) = lowerStr s := by
  simp [lowerStr, Function.comp_def, lowerChar_lowerChar]

theorem mem_lowerStr_low {s : Str} {t : Nat} (ht : t < 65) :
    t ∈ lowerStr s ↔ t ∈ s := by
  simp only [lowerStr, List.mem_map]
  constructor
  · rintro ⟨c, hc, h⟩
    have : c = t := (lowerChar_eq_low_iff ht).mp h
    subst this; exact hc
  · intro h
    exact ⟨t, h, (lowerChar_eq_low_iff ht).mpr rfl⟩

theorem lowerStr_eq_nil_iff {s : Str} : lowerStr s = [] ↔ s = [] := by
  simp [lowerStr]

theorem lowerStr_eq_star_iff {s : Str} : lowerStr s = [42] ↔ s = [42] := by
  constructor
  · intro h
    cases s with
    | nil => simp [lowerStr] at h
    | cons c rest =>
      simp only [lowerStr, List.map_cons] at h
      rw [List.cons.injEq] at h
      obtain ⟨h1, h2⟩ := h
      have hc : c = 42 := (lowerChar_eq_low_iff (by omega)).mp h1
      have hr : rest = [] := by simpa using congrArg List.length h2
      simp [hc, hr]
  · rintro rfl; rfl

theorem splitOnFirst_eq_none {c : Nat} {p : Str} :
    splitOnFirst c p = none ↔ c ∉ p := by
  induction p with
  | nil => simp [splitOnFirst]
  | cons d rest ih =>
    by_cases hd : d = c
    · subst hd; simp [splitOnFirst]
    · simp [splitOnFirst, hd, Option.map_eq_none', ih, Ne.symm hd]

theorem splitOnFirst_append {c : Nat} {s a : Str} (h : c ∉ s) :
    splitOnFirst c (s ++ c :: a) = some (s, a) := by
  induction s with
  | nil => simp [splitOnFirst]
  | cons d rest ih =>
    have hd : d ≠ c := fun hh => h (by rw [hh]; exact List.mem_cons_self c rest)
    have hrest : c ∉ rest := fun hh => h (List.mem_cons_of_mem d hh)
    simp [splitOnFirst, hd, ih hrest]

theorem splitOnFirst_eq_some {c : Nat} {p s a : Str}
    (h : splitOnFirst c p = some (s, a)) : p = s ++ c :: a ∧ c ∉ s := by
  induction p generalizing s a with
  | nil => simp [splitOnFirst] at h
  | cons d rest ih =>
    by_cases hd : d = c
    · subst hd
      simp only [splitOnFirst, if_pos rfl, Option.some.injEq, Prod.mk.injEq] at h
      obtain ⟨rfl, rfl⟩ := h
      exact ⟨rfl, List.not_mem_nil _⟩
    · simp only [splitOnFirst, if_neg hd, Option.map_eq_some'] at h
      obtain ⟨⟨s', a'⟩, hsp, heq⟩ := h
      simp only [Prod.mk.injEq] at heq
      obtain ⟨rfl, rfl⟩ := heq
      obtain ⟨h1, h2⟩ := ih hsp
      refine ⟨by simp [h1], ?_⟩
      intro hmem
      rcases List.mem_cons.mp hmem with h3 | h3
      · exact hd h3.symm
      · exact h2 h3

theorem splitOnFirst_lowerStr (p : Str) :
    splitOnFirst 58 (lowerStr p) =
      (splitOnFirst 58 p).map (fun q => (lowerStr q.1, lowerStr q.2)) := by
  induction p with
  | nil => rfl
  | cons d rest ih =>
    by_cases hd : d = 58
    · subst hd; simp [splitOnFirst, lowerStr, lowerChar]
    · have hld : lowerChar d ≠ 58 := fun hh => hd ((lowerChar_eq_low_iff (by omega)).mp hh)
      simp only [lowerStr, List.map_cons] at ih ⊢
      simp only [splitOnFirst, if_neg hld, if_neg hd, ih]
      cases h : splitOnFirst 58 rest <;> simp [lowerStr]

/-! ### Lemmas about set-as-list operations -/

theorem mem_insertS {s : List Str} {x y : Str} :
    x ∈ insertS s y ↔ x ∈ s ∨ x = y := by
  unfold insertS
  split
  · rename_i h
    constructor
    · exact Or.inl
    · rintro (hx | rfl) <;> [exact hx; exact h]
  · simp

theorem nodup_insertS {s : List Str} {y : Str} (h : s.Nodup) : (insertS s y).Nodup := by
  unfold insertS
  split
  · exact h
  · rename_i hy
    refine List.Nodup.append h (List.nodup_singleton y) ?_
    intro a ha hay
    rw [List.mem_singleton] at hay
    subst hay
    exact hy ha

/-- Membership through a `foldl` whose step either keeps the accumulator or
adds elements characterized by `Q`. -/
theorem foldl_mem_iff {α : Type} (f : List Str → α → List Str) (Q : α → Str → Prop)
    (hf : ∀ ac a x, x ∈ f ac a ↔ x ∈ ac ∨ Q a x) :
    ∀ (l : List α) (acc : List Str) (x : Str),
      x ∈ l.foldl f acc ↔ x ∈ acc ∨ ∃ a ∈ l, Q a x := by
  intro l
  induction l with
  | nil => simp
  | cons b rest ih =>
    intro acc x
    simp only [List.foldl_cons, ih, hf, List.mem_cons]
    constructor
    · rintro ((hx | hq) | ⟨a, ha, hq⟩)
      · exact Or.inl hx
      · exact Or.inr ⟨b, Or.inl rfl, hq⟩
      · exact Or.inr ⟨a, Or.inr ha, hq⟩
    · rintro (hx | ⟨a, (rfl | ha), hq⟩)
      · exact Or.inl (Or.inl hx)
      · exact Or.inl (Or.inr hq)
      · exact Or.inr ⟨a, ha, hq⟩

/-- `Nodup` is preserved through a `foldl` whose step preserves it. -/
theorem foldl_nodup {α : Type} (f : List Str → α → List Str)
    (hf : ∀ ac a, ac.Nodup → (f ac a).Nodup) :
    ∀ (l : List α) (acc : List Str), acc.Nodup → (l.foldl f acc).Nodup := by
  intro l
  induction l with
  | nil => intro acc h; exact h
  | cons b rest ih => intro acc h; exact ih _ (hf _ _ h)

/-- Weaker form of `foldl_mem_iff`: only the forward step property is known. -/
theorem foldl_mem_sub {α : Type} (f : List Str → α → List Str) (Q : α → Str → Prop)
    (hf : ∀ ac a x, x ∈ f ac a → x ∈ ac ∨ Q a x) :
    ∀ (l : List α) (acc : List Str) (x : Str),
      x ∈ l.foldl f acc → x ∈ acc ∨ ∃ a ∈ l, Q a x := by
  intro l
  induction l with
  | nil => intro acc x h; exact Or.inl h
  | cons b rest ih =>
    intro acc x h
    rcases ih _ _ h with h | ⟨a, ha, hq⟩
    · rcases hf _ _ _ h with h | hq
      · exact Or.inl h
      · exact Or.inr ⟨b, List.mem_cons_self _ _, hq⟩
    · exact Or.inr ⟨a, List.mem_cons_of_mem _ ha, hq⟩

/-- Folding a step that only ever adds elements keeps old elements. -/
theorem foldl_mem_mono {α : Type} (f : List Str → α → List Str)
    (hf : ∀ ac a x, x ∈ ac → x ∈ f ac a) :
    ∀ (l : List α) (acc : List Str) (x : Str), x ∈ acc → x ∈ l.foldl f acc := by
  intro l
  induction l with
  | nil => intro acc x h; exact h
  | cons b rest ih => intro acc x h; exact ih _ _ (hf _ _ _ h)

/-- An element contributed at some list position survives to the end of the fold. -/
theorem foldl_mem_intro {α : Type} (f : List Str → α → List Str) (Q : α → Str → Prop)
    (hmono : ∀ ac a x, x ∈ ac → x ∈ f ac a)
    (hin : ∀ ac a x, Q a x → x ∈ f ac a) :
    ∀ (l : List α) (acc : List Str) (x : Str),
      (x ∈ acc ∨ ∃ a ∈ l, Q a x) → x ∈ l.foldl f acc := by
  intro l
  induction l with
  | nil =>
    rintro acc x (h | ⟨a, ha, _⟩)
    · exact h
    · cases ha
  | cons b rest ih =>
    rintro acc x (h | ⟨a, ha, hq⟩)
    · exact ih _ _ (Or.inl (hmono _ _ _ h))
    · rcases List.mem_cons.mp ha with rfl | ha
      · exact ih _ _ (Or.inl (hin _ _ _ hq))
      · exact ih _ _ (Or.inr ⟨a, ha, hq⟩)

/-! ### The dictionary of lower-cased service keys -/

theorem assocUpd_mem {d : List (Str × Str)} {k v : Str} {q : Str × Str}
    (h : q ∈ assocUpd d k v) : q ∈ d ∨ q = (k, v) := by
  induction d with
  | nil => simpa [assocUpd] using h
  | cons e rest ih =>
    obtain ⟨k', v'⟩ := e
    by_cases hk : k' = k
    · rw [show assocUpd ((k', v') :: rest) k v = (k, v) :: rest from by
        simp [assocUpd, hk]] at h
      rcases List.mem_cons.mp h with rfl | h
      · exact Or.inr rfl
      · exact Or.inl (List.mem_cons_of_mem _ h)
    · rw [show assocUpd ((k', v') :: rest) k v = (k', v') :: assocUpd rest k v from by
        simp [assocUpd, hk]] at h
      rcases List.mem_cons.mp h with rfl | h
      · exact Or.inl (List.mem_cons_self _ _)
      · rcases ih h with h | h
        · exact Or.inl (List.mem_cons_of_mem _ h)
        · exact Or.inr h

theorem lowerToOriginal_aux {l : List Str} :
    ∀ {acc : List (Str × Str)} {q : Str × Str},
      q ∈ l.foldl (fun d key => assocUpd d (lowerStr key) key) acc →
      q ∈ acc ∨ ∃ key ∈ l, q = (lowerStr key, key) := by
  induction l with
  | nil => intro acc q h; exact Or.inl h
  | cons key rest ih =>
    intro acc q h
    rcases ih h with h | ⟨k2, hk2, rfl⟩
    · rcases assocUpd_mem h with h | rfl
      · exact Or.inl h
      · exact Or.inr ⟨key, List.mem_cons_self _ _, rfl⟩
    · exact Or.inr ⟨k2, List.mem_cons_of_mem _ hk2, rfl⟩

theorem lowerToOriginal_mem {keys : List Str} {q : Str × Str}
    (h : q ∈ lowerToOriginal keys) : q.2 ∈ keys ∧ q.1 = lowerStr q.2 := by
  unfold lowerToOriginal at h
  rcases lowerToOriginal_aux h with h | ⟨key, hk, rfl⟩
  · cases h
  · exact ⟨hk, rfl⟩

theorem assocFind_eq_none {d : List (Str × Str)} {k : Str}
    (h : ∀ q ∈ d, q.1 ≠ k) : assocFind d k = none := by
  induction d with
  | nil => rfl
  | cons q rest ih =>
    obtain ⟨k', v⟩ := q
    have hk : k' ≠ k := h (k', v) (List.mem_cons_self _ _)
    simp only [assocFind, if_neg hk]
    exact ih (fun e he => h e (List.mem_cons_of_mem _ he))

theorem assocFind_eq_some {d : List (Str × Str)} {k v : Str}
    (h : assocFind d k = some v) : (k, v) ∈ d := by
  induction d with
  | nil => cases h
  | cons q rest ih =>
    obtain ⟨k', v'⟩ := q
    by_cases hk : k' = k
    · subst hk
      simp only [assocFind, if_true, eq_self_iff_true, Option.some.injEq] at h
      subst h
      exact List.mem_cons_self _ _
    · simp only [assocFind, if_neg hk] at h
      exact List.mem_cons_of_mem _ (ih h)

/-! ### Target services and per-service contributions -/

theorem svcTargets_subset {C : Catalog} {sp k : Str}
    (h : k ∈ svcTargets C sp) : k ∈ C.serviceKeys := by
  unfold svcTargets at h
  split at h
  · exact h
  · split at h
    · rw [List.mem_filterMap] at h
      obtain ⟨kv, hkv, hif⟩ := h
      have hc := lowerToOriginal_mem hkv
      split at hif
      · rw [Option.some.injEq] at hif
        subst hif
        exact hc.1
      · cases hif
    · split at h
      · rename_i orig hfind
        rw [List.mem_singleton] at h
        subst h
        exact (lowerToOriginal_mem (assocFind_eq_some hfind)).1
      · cases h

theorem mem_addForService_mono {C : Catalog} {ap : Str} {acc : List Str} {k x : Str}
    (h : x ∈ acc) : x ∈ addForService C ap acc k := by
  unfold addForService
  split
  · exact h
  · split
    · exact foldl_mem_mono _ (fun ac a y hy => mem_insertS.mpr (Or.inl hy)) _ _ _ h
    · split
      · refine foldl_mem_mono _ (fun ac a y hy => ?_) _ _ _ h
        split
        · exact mem_insertS.mpr (Or.inl hy)
        · exact hy
      · split
        · exact mem_insertS.mpr (Or.inl h)
        · exact h

theorem mem_addForService {C : Catalog} {ap : Str} {acc : List Str} {k x : Str}
    (h : x ∈ addForService C ap acc k) :
    x ∈ acc ∨ ∃ a ∈ C.actionsFor k, x = mkAction k a := by
  unfold addForService at h
  split at h
  · exact Or.inl h
  · split at h
    · exact foldl_mem_sub _ (fun a x => x = mkAction k a)
        (fun ac a x hx => mem_insertS.mp hx) _ _ _ h
    · split at h
      · refine foldl_mem_sub _ (fun a x => x = mkAction k a) (fun ac a x hx => ?_) _ _ _ h
        split at hx
        · exact mem_insertS.mp hx
        · exact Or.inl hx
      · split at h
        · rename_i a hfind
          rcases mem_insertS.mp h with h | rfl
          · exact Or.inl h
          · exact Or.inr ⟨a, List.mem_of_find?_eq_some hfind, rfl⟩
        · exact Or.inl h

/-- Full membership characterization of the exact-name branch (no wildcard in the
action pattern): only the first action whose lower-cased name equals the pattern
is added, as the Python loop `break`s. -/
theorem mem_addForService_exact {C : Catalog} {ap : Str} {acc : List Str} {k x : Str}
    (hs : ap ≠ [42]) (hw : ¬(42 ∈ ap ∨ 63 ∈ ap)) :
    x ∈ addForService C ap acc k ↔ x ∈ acc ∨
      ∃ a, (C.actionsFor k).find? (fun b => lowerStr b == ap) = some a ∧
        x = mkAction k a := by
  unfold addForService
  by_cases hempty : C.actionsFor k = []
  · simp [hempty]
  · rw [if_neg hempty, if_neg hs, if_neg hw]
    split
    · rename_i a hfind
      rw [mem_insertS, hfind]
      simp
    · rename_i hfind
      rw [hfind]
      simp

theorem nodup_addForService {C : Catalog} {ap : Str} {acc : List Str} {k : Str}
    (h : acc.Nodup) : (addForService C ap acc k).Nodup := by
  unfold addForService
  split
  · exact h
  · split
    · exact foldl_nodup _ (fun ac a ha => nodup_insertS ha) _ _ h
    · split
      · refine foldl_nodup _ (fun ac a ha => ?_) _ _ h
        split
        · exact nodup_insertS ha
        · exact ha
      · split
        · exact nodup_insertS h
        · exact h

theorem mem_expandCore {C : Catalog} {sp ap x : Str} (h : x ∈ expandCore C sp ap) :
    ∃ k ∈ svcTargets C sp, ∃ a ∈ C.actionsFor k, x = mkAction k a := by
  unfold expandCore at h
  split at h
  · cases h
  · rcases foldl_mem_sub (addForService C ap)
      (fun k x => ∃ a ∈ C.actionsFor k, x = mkAction k a)
      (fun ac k x hx => mem_addForService hx) _ _ _ h with h | h
    · cases h
    · exact h

theorem nodup_expandCore {C : Catalog} {sp ap : Str} : (expandCore C sp ap).Nodup := by
  unfold expandCore
  split
  · exact List.nodup_nil
  · exact foldl_nodup _ (fun ac k ha => nodup_addForService ha) _ _ List.nodup_nil

theorem mem_get_all_actions {C : Catalog} {x : Str} :
    x ∈ get_all_actions C ↔
      ∃ k ∈ C.serviceKeys, ∃ a ∈ C.actionsFor k, x = mkAction k a := by
  unfold get_all_actions
  rw [foldl_mem_iff _ (fun k x => ∃ a ∈ C.actionsFor k, x = mkAction k a) ?_]
  · simp
  · intro ac k y
    split
    · rename_i hempty
      simp [hempty]
    · rw [foldl_mem_iff _ (fun a x => x = mkAction k a) (fun _ _ _ => mem_insertS)]

theorem nodup_get_all_actions {C : Catalog} : (get_all_actions C).Nodup := by
  unfold get_all_actions
  refine foldl_nodup _ (fun ac k ha => ?_) _ _ List.nodup_nil
  split
  · exact ha
  · exact foldl_nodup _ (fun ac a hb => nodup_insertS hb) _ _ ha

/-! ### The pattern loop -/

theorem collectExpanded_ok_nodup {C : Catalog} :
    ∀ {ps acc s : List Str}, collectExpanded C acc ps = .ok s → acc.Nodup → s.Nodup := by
  intro ps
  induction ps with
  | nil =>
    intro acc s h ha
    cases h
    exact ha
  | cons p rest ih =>
    intro acc s h ha
    simp only [collectExpanded] at h
    split at h
    · cases h
    · exact ih h (foldl_nodup insertS (fun ac a hb => nodup_insertS hb) _ _ ha)

theorem collectExpanded_ok_mem {C : Catalog} :
    ∀ {ps acc s : List Str}, collectExpanded C acc ps = .ok s →
      ∀ x, x ∈ s ↔ x ∈ acc ∨
        ∃ p ∈ ps, ∃ t, expand_single_pattern C p = .ok t ∧ x ∈ t := by
  intro ps
  induction ps with
  | nil =>
    intro acc s h x
    cases h
    simp
  | cons p rest ih =>
    intro acc s h x
    simp only [collectExpanded] at h
    split at h
    · cases h
    · rename_i t ht
      rw [ih h x, foldl_mem_iff insertS (fun a x => x = a) (fun _ _ _ => mem_insertS)]
      constructor
      · rintro ((hx | ⟨a, ha, rfl⟩) | ⟨q, hq, u, hu, hx⟩)
        · exact Or.inl hx
        · exact Or.inr ⟨p, List.mem_cons_self _ _, t, ht, ha⟩
        · exact Or.inr ⟨q, List.mem_cons_of_mem _ hq, u, hu, hx⟩
      · rintro (hx | ⟨q, hq, u, hu, hx⟩)
        · exact Or.inl (Or.inl hx)
        · rcases List.mem_cons.mp hq with rfl | hq
          · rw [ht] at hu
            cases hu
            exact Or.inl (Or.inr ⟨x, hx, rfl⟩)
          · exact Or.inr ⟨q, hq, u, hu, hx⟩

theorem collectExpanded_error {C : Catalog} {pre : List Str} {bad : Str}
    {e : InvalidActionPatternError}
    (hpre : ∀ p ∈ pre, ∃ s, expand_single_pattern C p = .ok s)
    (hbad : expand_single_pattern C bad = .error e) :
    ∀ (acc post : List Str),
      collectExpanded C acc (pre ++ bad :: post) = .error e := by
  induction pre with
  | nil =>
    intro acc post
    simp only [List.nil_append, collectExpanded]
    rw [hbad]
  | cons p rest ih =>
    intro acc post
    obtain ⟨s, hs⟩ := hpre p (List.mem_cons_self _ _)
    simp only [List.cons_append, collectExpanded]
    rw [hs]
    exact ih (fun q hq => hpre q (List.mem_cons_of_mem _ hq)) _ _

/-! ### Parsing and target-resolution helper lemmas -/

/-- A well-formed `service:action` pattern parses into its two lowered parts. -/
theorem expand_single_pattern_split {C : Catalog} {s a : Str}
    (hs : s ≠ []) (ha : a ≠ []) (hcolon : (58 : Nat) ∉ s) :
    expand_single_pattern C (s ++ 58 :: a) =
      .ok (expandCore C (lowerStr s) (lowerStr a)) := by
  have hp : s ++ 58 :: a ≠ [42] := by
    intro h
    have h58 : (58 : Nat) ∈ s ++ 58 :: a := by simp
    rw [h] at h58
    simp at h58
  unfold expand_single_pattern
  rw [if_neg hp, splitOnFirst_append hcolon]
  simp [hs, ha]

theorem globMatch_star (t : Str) : globMatch [42] t = true := by
  show matchToks (globToksAux none [42]) t = true
  have h : globToksAux none [42] = [.star] := rfl
  rw [h]
  have h2 : matchToks [.star] t = t.tails.any (fun u => matchToks [] u) := by
    rw [matchToks]
  rw [h2, List.any_eq_true]
  refine ⟨[], ?_, by decide⟩
  rw [List.mem_tails]
  exact List.nil_suffix

/-- When no service key matches the lowered service part — neither exactly nor
by glob — the target list is empty. -/
theorem svcTargets_eq_nil {C : Catalog} {sp : Str}
    (hmatch : ∀ k ∈ C.serviceKeys,
      lowerStr k ≠ sp ∧ globMatch sp (lowerStr k) = false) :
    svcTargets C sp = [] := by
  unfold svcTargets
  split
  · rename_i hstar
    subst hstar
    cases hkeys : C.serviceKeys with
    | nil => rfl
    | cons k rest =>
      exfalso
      have hf := (hmatch k (by rw [hkeys]; exact List.mem_cons_self _ _)).2
      rw [globMatch_star] at hf
      cases hf
  · split
    · rw [List.filterMap_eq_nil_iff]
      intro kv hkv
      obtain ⟨hk2, hk1⟩ := lowerToOriginal_mem hkv
      have hg : globMatch sp kv.1 = false := by
        rw [hk1]
        exact (hmatch kv.2 hk2).2
      simp [hg]
    · have hnone : assocFind (lowerToOriginal C.serviceKeys) sp = none := by
        refine assocFind_eq_none (fun q hq => ?_)
        obtain ⟨hq2, hq1⟩ := lowerToOriginal_mem hq
        rw [hq1]
        exact (hmatch q.2 hq2).1
      rw [hnone]

/-- `service:action` strings decompose uniquely when service keys are colon-free. -/
theorem mkAction_inj {k a k' a' : Str} (hk : (58 : Nat) ∉ k) (hk' : (58 : Nat) ∉ k')
    (h : mkAction k a = mkAction k' a') : k = k' ∧ a = a' := by
  have h1 := splitOnFirst_append (c := 58) (s := k) (a := a) hk
  rw [show k ++ 58 :: a = k' ++ 58 :: a' from h, splitOnFirst_append hk'] at h1
  simp only [Option.some.injEq, Prod.mk.injEq] at h1
  exact ⟨h1.1.symm, h1.2.symm⟩

theorem assocFind_assocUpd_self {d : List (Str × Str)} {kk v : Str} :
    assocFind (assocUpd d kk v) kk = some v := by
  induction d with
  | nil => simp [assocUpd, assocFind]
  | cons q rest ih =>
    obtain ⟨k', v'⟩ := q
    by_cases hk : k' = kk
    · simp [assocUpd, hk, assocFind]
    · simp [assocUpd, hk, assocFind, ih]

theorem assocFind_assocUpd_ne {d : List (Str × Str)} {kk kk' v : Str}
    (h : kk' ≠ kk) : assocFind (assocUpd d kk v) kk' = assocFind d kk' := by
  induction d with
  | nil =>
    have h2 : kk ≠ kk' := Ne.symm h
    simp [assocUpd, assocFind, h2]
  | cons q rest ih =>
    obtain ⟨k2, v2⟩ := q
    by_cases hk : k2 = kk
    · subst hk
      have hne : k2 ≠ kk' := Ne.symm h
      simp [assocUpd, assocFind, hne]
    · simp [assocUpd, hk, assocFind, ih]

/-- The lower-case dictionary resolves every service key present in the catalog. -/
theorem lowerToOriginal_find_of_mem {keys : List Str} {k : Str} (hk : k ∈ keys) :
    ∃ v, assocFind (lowerToOriginal keys) (lowerStr k) = some v := by
  unfold lowerToOriginal
  have main : ∀ (l : List Str) (acc : List (Str × Str)),
      ((∃ key ∈ l, lowerStr key = lowerStr k) ∨
        (∃ v, assocFind acc (lowerStr k) = some v)) →
      ∃ v, assocFind (l.foldl (fun d key => assocUpd d (lowerStr key) key) acc)
        (lowerStr k) = some v := by
    intro l
    induction l with
    | nil =>
      rintro acc (⟨key, hkey, _⟩ | hv)
      · cases hkey
      · exact hv
    | cons key rest ih =>
      rintro acc (⟨key2, hkey2, he⟩ | ⟨v, hv⟩)
      · rcases List.mem_cons.mp hkey2 with rfl | hkey2
        · refine ih _ (Or.inr ⟨key2, ?_⟩)
          rw [← he]
          exact assocFind_assocUpd_self
        · exact ih _ (Or.inl ⟨key2, hkey2, he⟩)
      · by_cases he : lowerStr k = lowerStr key
        · refine ih _ (Or.inr ⟨key, ?_⟩)
          rw [he]
          exact assocFind_assocUpd_self
        · refine ih _ (Or.inr ⟨v, ?_⟩)
          rw [assocFind_assocUpd_ne he]
          exact hv
  exact main keys [] (Or.inl ⟨k, hk, rfl⟩)

/-! ### Claim C1 -/

/-- **C1**: a well-formed `service:action` pattern whose service part matches no
catalog service key — neither exactly case-insensitively nor by glob — expands
to the empty action set and raises no error. -/
theorem c1_unknown_service_empty (C : Catalog) (s a : Str)
    (hs : s ≠ []) (ha : a ≠ []) (hcolon : (58 : Nat) ∉ s)
    (hmatch : ∀ k ∈ C.serviceKeys,
      lowerStr k ≠ lowerStr s ∧ globMatch (lowerStr s) (lowerStr k) = false) :
    expand_single_pattern C (s ++ 58 :: a) = .ok [] := by
  rw [expand_single_pattern_split hs ha hcolon]
  have hcore : expandCore C (lowerStr s) (lowerStr a) = [] := by
    unfold expandCore
    rw [svcTargets_eq_nil hmatch]
    rfl
  rw [hcore]

theorem c1_unknown_service_empty_witness :
    str "nonexistent" ≠ [] ∧ ([42] : Str) ≠ [] ∧ (58 : Nat) ∉ str "nonexistent" ∧
    (∀ k ∈ mockCatalog.serviceKeys,
      lowerStr k ≠ lowerStr (str "nonexistent") ∧
      globMatch (lowerStr (str "nonexistent")) (lowerStr k) = false) ∧
    expand_single_pattern mockCatalog (str "nonexistent" ++ 58 :: [42]) = .ok [] :=
  ⟨by decide, by decide, by decide, by decide,
    c1_unknown_service_empty mockCatalog (str "nonexistent") [42]
      (by decide) (by decide) (by decide) (by decide)⟩

/-- A pattern other than `"*"` without a colon is rejected with the
missing-colon message. -/
theorem expand_single_pattern_no_colon {C : Catalog} {p : Str}
    (hp : p ≠ [42]) (h : (58 : Nat) ∉ p) :
    expand_single_pattern C p = .error ⟨p, msgMissingColon⟩ := by
  unfold expand_single_pattern
  rw [if_neg hp, splitOnFirst_eq_none.mpr h]

/-- A pattern with a colon but a literally empty service or action part is
rejected; the surfaced error is the re-raise of the `except ValueError`
handler, carrying the same pattern and the `msgUnexpected` message. -/
theorem expand_single_pattern_empty_part {C : Catalog} {s a : Str}
    (hp : s ++ 58 :: a ≠ [42]) (hcs : (58 : Nat) ∉ s) (hsa : s = [] ∨ a = []) :
    expand_single_pattern C (s ++ 58 :: a) = .error ⟨s ++ 58 :: a, msgUnexpected⟩ := by
  unfold expand_single_pattern
  rw [if_neg hp, splitOnFirst_append hcs]
  simp [hsa]

/-! ### Claim C3 -/

/-- **C3 counterexample**: the pattern `" :GetObject"` (code points
`[32, 58, 103, ...]`) has a service part `" "` that is empty after trimming
whitespace, so the claim demands a raised `InvalidActionPatternError`; the code
instead treats the single space as a non-empty service part, finds no such
service, and returns the empty set without error. -/
theorem c3_counterexample :
    splitOnFirst 58 (str " :GetObject") = some ([32], str "GetObject") ∧
    expand_single_pattern mockCatalog (str " :GetObject") = .ok [] := by decide

/-- **C3 (amended)**: a pattern that is not `"*"` and contains no colon, or that
contains a colon with either side literally empty (no whitespace trimming),
makes the engine raise a typed `InvalidActionPatternError` carrying the
offending pattern and a human-readable reason; such input is never silently
dropped.  In the empty-part case the raised error is the `except ValueError`
handler's re-raise, so its reason is `msgUnexpected`, not the message built at
the original raise site. -/
theorem c3_malformed_raises (C : Catalog) (p : Str) (hp : p ≠ [42]) :
    ((58 : Nat) ∉ p → expand_single_pattern C p = .error ⟨p, msgMissingColon⟩) ∧
    (∀ s a, p = s ++ 58 :: a → (58 : Nat) ∉ s → s = [] ∨ a = [] →
      expand_single_pattern C p = .error ⟨p, msgUnexpected⟩) := by
  constructor
  · intro hcolon
    exact expand_single_pattern_no_colon hp hcolon
  · rintro s a rfl hcs hsa
    exact expand_single_pattern_empty_part hp hcs hsa

theorem c3_malformed_raises_witness :
    str "s3:" ≠ [42] ∧
    (((58 : Nat) ∉ str "s3:" →
        expand_single_pattern mockCatalog (str "s3:") =
          .error ⟨str "s3:", msgMissingColon⟩) ∧
      (∀ s a, str "s3:" = s ++ 58 :: a → (58 : Nat) ∉ s → s = [] ∨ a = [] →
        expand_single_pattern mockCatalog (str "s3:") =
          .error ⟨str "s3:", msgUnexpected⟩)) :=
  ⟨by decide, c3_malformed_raises mockCatalog (str "s3:") (by decide)⟩

/-! ### Claim C5 -/

/-- **C5**: processing a pattern list is all-or-nothing: when a pattern raises,
`expand_actions` and `invert_actions` return exactly that error whatever comes
after it in the list, no partial result is returned, and — mirroring the code,
where the excluded set is collected before `_get_all_actions` is called — the
inversion's catalog-wide enumeration and set subtraction never influence the
outcome. -/
theorem c5_all_or_nothing (C : Catalog) (pre : List Str) (bad : Str)
    (e : InvalidActionPatternError)
    (hpre : ∀ p ∈ pre, ∃ s, expand_single_pattern C p = .ok s)
    (hbad : expand_single_pattern C bad = .error e) :
    ∀ post : List Str,
      expand_actions C (pre ++ bad :: post) = .error e ∧
      invert_actions C (pre ++ bad :: post) = .error e := by
  intro post
  have hcol := collectExpanded_error hpre hbad [] post
  constructor
  · unfold expand_actions
    rw [hcol]
  · unfold invert_actions
    rw [hcol]

theorem c5_all_or_nothing_witness :
    (∀ p ∈ [str "s3:Get*"], ∃ s, expand_single_pattern mockCatalog p = .ok s) ∧
    expand_single_pattern mockCatalog (str "invalid-format") =
      .error ⟨str "invalid-format", msgMissingColon⟩ ∧
    expand_actions mockCatalog ([str "s3:Get*"] ++ str "invalid-format" :: [str "ec2:*"]) =
      .error ⟨str "invalid-format", msgMissingColon⟩ ∧
    invert_actions mockCatalog ([str "s3:Get*"] ++ str "invalid-format" :: [str "ec2:*"]) =
      .error ⟨str "invalid-format", msgMissingColon⟩ := by
  have h1 : ∀ p ∈ [str "s3:Get*"], ∃ s, expand_single_pattern mockCatalog p = .ok s := by
    intro p hp
    rw [List.mem_singleton] at hp
    subst hp
    exact ⟨[str "S3:GetObject", str "S3:GetBucket"], by decide⟩
  have h2 : expand_single_pattern mockCatalog (str "invalid-format") =
      .error ⟨str "invalid-format", msgMissingColon⟩ := by decide
  have h3 := c5_all_or_nothing mockCatalog [str "s3:Get*"] (str "invalid-format") _
    h1 h2 [str "ec2:*"]
  exact ⟨h1, h2, h3.1, h3.2⟩

/-! ### Claim C2 -/

/-- Every action produced by a single pattern is a catalog action. -/
theorem expand_single_pattern_subset {C : Catalog} {p : Str} {t : List Str}
    (h : expand_single_pattern C p = .ok t) {x : Str} (hx : x ∈ t) :
    x ∈ get_all_actions C := by
  have hcore : ∃ sp ap, t = expandCore C sp ap := by
    unfold expand_single_pattern at h
    split at h
    · exact ⟨[42], [42], by cases h; rfl⟩
    · split at h
      · cases h
      · split at h
        · cases h
        · exact ⟨_, _, by cases h; rfl⟩
  obtain ⟨sp, ap, rfl⟩ := hcore
  obtain ⟨k, hk, a, ha, rfl⟩ := mem_expandCore hx
  exact mem_get_all_actions.mpr ⟨k, svcTargets_subset hk, a, ha, rfl⟩

/-- **C2**: whenever `expand_actions` and `invert_actions` both succeed on the
same patterns, their results are disjoint and together cover exactly the full
catalog enumeration `_get_all_actions`. -/
theorem c2_partition (C : Catalog) (ps : List Str) (l₁ l₂ : List Str)
    (h₁ : expand_actions C ps = .ok l₁) (h₂ : invert_actions C ps = .ok l₂) :
    (∀ x, x ∈ l₁ → x ∉ l₂) ∧ (∀ x, x ∈ l₁ ∨ x ∈ l₂ ↔ x ∈ get_all_actions C) := by
  cases hcol : collectExpanded C [] ps with
  | error e =>
    unfold expand_actions at h₁
    rw [hcol] at h₁
    cases h₁
  | ok s =>
    unfold expand_actions at h₁
    unfold invert_actions at h₂
    rw [hcol] at h₁ h₂
    cases h₁
    cases h₂
    have hm2 : ∀ x : Str,
        x ∈ List.insertionSort strLe
          ((get_all_actions C).filter (fun x => decide (x ∉ s))) ↔
        x ∈ get_all_actions C ∧ x ∉ s := by
      intro x
      rw [List.mem_insertionSort, List.mem_filter]
      simp
    have hsub : ∀ x ∈ s, x ∈ get_all_actions C := by
      intro x hx
      rcases (collectExpanded_ok_mem hcol x).mp hx with h | ⟨p, _, t, ht, hxt⟩
      · cases h
      · exact expand_single_pattern_subset ht hxt
    constructor
    · intro x hx
      rw [List.mem_insertionSort] at hx
      rw [hm2]
      rintro ⟨_, hns⟩
      exact hns hx
    · intro x
      rw [List.mem_insertionSort, hm2]
      constructor
      · rintro (hx | ⟨hall, _⟩)
        · exact hsub x hx
        · exact hall
      · intro hall
        by_cases hxs : x ∈ s
        · exact Or.inl hxs
        · exact Or.inr ⟨hall, hxs⟩

theorem c2_partition_witness :
    expand_actions mockCatalog [str "s3:Get*"] =
      .ok [str "S3:GetBucket", str "S3:GetObject"] ∧
    invert_actions mockCatalog [str "s3:Get*"] =
      .ok [str "EC2:DescribeInstances", str "EC2:DescribeVolumes",
           str "IAM:CreateAccessKey", str "IAM:ListAccessKeys", str "IAM:PassRole",
           str "STS:AssumeRole"] ∧
    ((∀ x, x ∈ [str "S3:GetBucket", str "S3:GetObject"] →
        x ∉ [str "EC2:DescribeInstances", str "EC2:DescribeVolumes",
             str "IAM:CreateAccessKey", str "IAM:ListAccessKeys", str "IAM:PassRole",
             str "STS:AssumeRole"]) ∧
      (∀ x, x ∈ [str "S3:GetBucket", str "S3:GetObject"] ∨
          x ∈ [str "EC2:DescribeInstances", str "EC2:DescribeVolumes",
               str "IAM:CreateAccessKey", str "IAM:ListAccessKeys", str "IAM:PassRole",
               str "STS:AssumeRole"] ↔ x ∈ get_all_actions mockCatalog)) :=
  ⟨by decide, by decide,
    c2_partition mockCatalog [str "s3:Get*"] _ _ (by decide) (by decide)⟩

/-! ### Claim C8 -/

/-- **C8**: whenever `expand_actions` and `invert_actions` succeed, the returned
sequences are lexicographically sorted, duplicate-free, and fixed points of
sorting. -/
theorem c8_sorted_nodup (C : Catalog) (ps : List Str) (l₁ l₂ : List Str)
    (h₁ : expand_actions C ps = .ok l₁) (h₂ : invert_actions C ps = .ok l₂) :
    (List.Sorted strLe l₁ ∧ l₁.Nodup ∧ List.insertionSort strLe l₁ = l₁) ∧
    (List.Sorted strLe l₂ ∧ l₂.Nodup ∧ List.insertionSort strLe l₂ = l₂) := by
  cases hcol : collectExpanded C [] ps with
  | error e =>
    unfold expand_actions at h₁
    rw [hcol] at h₁
    cases h₁
  | ok s =>
    unfold expand_actions at h₁
    unfold invert_actions at h₂
    rw [hcol] at h₁ h₂
    cases h₁
    cases h₂
    have hs : s.Nodup := collectExpanded_ok_nodup hcol List.nodup_nil
    have hall : ((get_all_actions C).filter (fun x => decide (x ∉ s))).Nodup :=
      List.Nodup.filter _ nodup_get_all_actions
    have srt1 := List.sorted_insertionSort strLe s
    have srt2 := List.sorted_insertionSort strLe
      ((get_all_actions C).filter (fun x => decide (x ∉ s)))
    exact ⟨⟨srt1, ((List.perm_insertionSort strLe s).nodup_iff).mpr hs,
        srt1.insertionSort_eq⟩,
      ⟨srt2, ((List.perm_insertionSort strLe _).nodup_iff).mpr hall,
        srt2.insertionSort_eq⟩⟩

theorem c8_sorted_nodup_witness :
    expand_actions mockCatalog [str "s3:Get*", str "s3:*", str "iam:Pass*"] =
      .ok [str "IAM:PassRole", str "S3:GetBucket", str "S3:GetObject"] ∧
    invert_actions mockCatalog [str "s3:Get*", str "s3:*", str "iam:Pass*"] =
      .ok [str "EC2:DescribeInstances", str "EC2:DescribeVolumes",
           str "IAM:CreateAccessKey", str "IAM:ListAccessKeys", str "STS:AssumeRole"] ∧
    ((List.Sorted strLe [str "IAM:PassRole", str "S3:GetBucket", str "S3:GetObject"] ∧
        List.Nodup [str "IAM:PassRole", str "S3:GetBucket", str "S3:GetObject"] ∧
        List.insertionSort strLe
            [str "IAM:PassRole", str "S3:GetBucket", str "S3:GetObject"] =
          [str "IAM:PassRole", str "S3:GetBucket", str "S3:GetObject"]) ∧
      (List.Sorted strLe [str "EC2:DescribeInstances", str "EC2:DescribeVolumes",
          str "IAM:CreateAccessKey", str "IAM:ListAccessKeys", str "STS:AssumeRole"] ∧
        List.Nodup [str "EC2:DescribeInstances", str "EC2:DescribeVolumes",
          str "IAM:CreateAccessKey", str "IAM:ListAccessKeys", str "STS:AssumeRole"] ∧
        List.insertionSort strLe
            [str "EC2:DescribeInstances", str "EC2:DescribeVolumes",
             str "IAM:CreateAccessKey", str "IAM:ListAccessKeys", str "STS:AssumeRole"] =
          [str "EC2:DescribeInstances", str "EC2:DescribeVolumes",
           str "IAM:CreateAccessKey", str "IAM:ListAccessKeys", str "STS:AssumeRole"])) :=
  ⟨by decide, by decide,
    c8_sorted_nodup mockCatalog [str "s3:Get*", str "s3:*", str "iam:Pass*"] _ _
      (by decide) (by decide)⟩

/-! ### Claim C6 -/

/-- Successful expansion depends only on the lower-cased pattern. -/
theorem expand_single_pattern_ok_congr {C : Catalog} {p₁ p₂ : Str}
    (h : lowerStr p₁ = lowerStr p₂) {l : List Str}
    (h₁ : expand_single_pattern C p₁ = .ok l) :
    expand_single_pattern C p₂ = .ok l := by
  by_cases hstar : p₁ = [42]
  · subst hstar
    have hp2 : p₂ = [42] := lowerStr_eq_star_iff.mp (by rw [← h]; decide)
    subst hp2
    exact h₁
  · have hstar2 : p₂ ≠ [42] := by
      intro hh
      subst hh
      exact hstar (lowerStr_eq_star_iff.mp (by rw [h]; decide))
    have hsplit := splitOnFirst_lowerStr p₁
    rw [h, splitOnFirst_lowerStr p₂] at hsplit
    cases e1 : splitOnFirst 58 p₁ with
    | none =>
      rw [expand_single_pattern_no_colon hstar (splitOnFirst_eq_none.mp e1)] at h₁
      cases h₁
    | some q₁ =>
      obtain ⟨hp1, hc1⟩ := splitOnFirst_eq_some (p := p₁) (s := q₁.1) (a := q₁.2)
        (by rw [e1])
      cases e2 : splitOnFirst 58 p₂ with
      | none =>
        rw [e1, e2] at hsplit
        cases hsplit
      | some q₂ =>
        obtain ⟨hp2, hc2⟩ := splitOnFirst_eq_some (p := p₂) (s := q₂.1) (a := q₂.2)
          (by rw [e2])
        rw [e1, e2] at hsplit
        simp only [Option.map_some', Option.some.injEq, Prod.mk.injEq] at hsplit
        obtain ⟨hq1, hq2⟩ := hsplit
        by_cases hemp : q₁.1 = [] ∨ q₁.2 = []
        · rw [hp1] at h₁
          rw [expand_single_pattern_empty_part (by rw [← hp1]; exact hstar) hc1 hemp] at h₁
          cases h₁
        · push_neg at hemp
          obtain ⟨hs1, ha1⟩ := hemp
          have hs2 : q₂.1 ≠ [] := by
            intro hh
            exact hs1 (lowerStr_eq_nil_iff.mp (by rw [← hq1, hh]; rfl))
          have ha2 : q₂.2 ≠ [] := by
            intro hh
            exact ha1 (lowerStr_eq_nil_iff.mp (by rw [← hq2, hh]; rfl))
          rw [hp1, expand_single_pattern_split hs1 ha1 hc1] at h₁
          rw [hp2, expand_single_pattern_split hs2 ha2 hc2, hq1, hq2]
          exact h₁

/-- **C6**: matching is case-insensitive — two patterns with the same
lower-casing expand to exactly the same sorted list of canonical actions. -/
theorem c6_case_insensitive (C : Catalog) (p₁ p₂ : Str)
    (h : lowerStr p₁ = lowerStr p₂) :
    (∀ l, expand_actions C [p₁] = .ok l → expand_actions C [p₂] = .ok l) ∧
    (∀ l₁ l₂, expand_actions C [p₁] = .ok l₁ → expand_actions C [p₂] = .ok l₂ →
      l₁ = l₂) := by
  have key : ∀ l, expand_actions C [p₁] = .ok l → expand_actions C [p₂] = .ok l := by
    intro l hl
    unfold expand_actions at hl ⊢
    simp only [collectExpanded] at hl ⊢
    cases e1 : expand_single_pattern C p₁ with
    | error e =>
      rw [e1] at hl
      cases hl
    | ok t =>
      rw [e1] at hl
      rw [expand_single_pattern_ok_congr h e1]
      exact hl
  refine ⟨key, fun l₁ l₂ h₁ h₂ => ?_⟩
  have h₃ := key l₁ h₁
  rw [h₃] at h₂
  cases h₂
  rfl

theorem c6_case_insensitive_witness :
    lowerStr (str "s3:GeT*") = lowerStr (str "S3:GET*") ∧
    ((∀ l, expand_actions mockCatalog [str "s3:GeT*"] = .ok l →
        expand_actions mockCatalog [str "S3:GET*"] = .ok l) ∧
      (∀ l₁ l₂, expand_actions mockCatalog [str "s3:GeT*"] = .ok l₁ →
        expand_actions mockCatalog [str "S3:GET*"] = .ok l₂ → l₁ = l₂)) :=
  ⟨by decide, c6_case_insensitive mockCatalog (str "s3:GeT*") (str "S3:GET*") (by decide)⟩

/-! ### Claim C10 -/

/-- A service with an empty action list contributes nothing to the service
loop (actions.py line 78 `continue`). -/
theorem foldl_addForService_empty {C : Catalog} {ap : Str} :
    ∀ (ts acc : List Str), (∀ k2 ∈ ts, C.actionsFor k2 = []) →
      ts.foldl (addForService C ap) acc = acc := by
  intro ts
  induction ts with
  | nil => intro acc _; rfl
  | cons k2 rest ih =>
    intro acc h
    have h1 : addForService C ap acc k2 = acc := by
      unfold addForService
      rw [if_pos (h k2 (List.mem_cons_self _ _))]
    rw [List.foldl_cons, h1]
    exact ih acc (fun q hq => h q (List.mem_cons_of_mem _ hq))

/-- A pattern all of whose target services have empty action lists expands to
the empty set. -/
theorem expandCore_empty_targets {C : Catalog} {sp ap : Str}
    (h : ∀ k2 ∈ svcTargets C sp, C.actionsFor k2 = []) :
    expandCore C sp ap = [] := by
  unfold expandCore
  split
  · rfl
  · exact foldl_addForService_empty _ _ h

/-- **C10**: a catalog service with an empty action list is harmless.  Every
well-formed pattern all of whose target services have empty action lists —
in particular, by the second conjunct, any case variant of the service name
with any action part whatsoever, since such a pattern targets only services
sharing the name's lower-casing — resolves to the empty set without error;
and no `service:action` pair of the empty service occurs in the full
enumeration used by `invert_actions`. -/
theorem c10_empty_service (C : Catalog) (k : Str)
    (hk : k ∈ C.serviceKeys)
    (hkeys : ∀ k2 ∈ C.serviceKeys, (58 : Nat) ∉ k2)
    (hempty : ∀ k2 ∈ C.serviceKeys, lowerStr k2 = lowerStr k → C.actionsFor k2 = []) :
    (∀ s a, s ≠ [] → a ≠ [] → (58 : Nat) ∉ s →
      (∀ k2 ∈ svcTargets C (lowerStr s), C.actionsFor k2 = []) →
      expand_single_pattern C (s ++ 58 :: a) = .ok []) ∧
    (∀ s, ¬((42 : Nat) ∈ lowerStr s ∨ (63 : Nat) ∈ lowerStr s) →
      lowerStr s = lowerStr k →
      ∀ k2 ∈ svcTargets C (lowerStr s), C.actionsFor k2 = []) ∧
    (∀ a, mkAction k a ∉ get_all_actions C) := by
  refine ⟨?_, ?_, ?_⟩
  · intro s a hs ha hcs htargets
    rw [expand_single_pattern_split hs ha hcs, expandCore_empty_targets htargets]
  · intro s hw hsk
    have hstar : lowerStr s ≠ [42] := by
      intro hh
      exact hw (Or.inl (by rw [hh]; exact List.mem_cons_self _ _))
    intro k2 hk2
    unfold svcTargets at hk2
    rw [if_neg hstar, if_neg hw] at hk2
    split at hk2
    · rename_i orig hfind
      rw [List.mem_singleton] at hk2
      subst hk2
      have hmem := lowerToOriginal_mem (assocFind_eq_some hfind)
      exact hempty k2 hmem.1 (by rw [← hmem.2]; exact hsk)
    · cases hk2
  · intro a hmem
    obtain ⟨k2, hk2, a2, ha2, heq⟩ := mem_get_all_actions.mp hmem
    obtain ⟨hkk, -⟩ := mkAction_inj (hkeys k hk) (hkeys k2 hk2) heq
    subst hkk
    rw [hempty k hk rfl] at ha2
    cases ha2

theorem c10_empty_service_witness :
    str "Empty" ∈ emptyServiceCatalog.serviceKeys ∧
    (∀ k2 ∈ emptyServiceCatalog.serviceKeys, (58 : Nat) ∉ k2) ∧
    (∀ k2 ∈ emptyServiceCatalog.serviceKeys,
      lowerStr k2 = lowerStr (str "Empty") →
        emptyServiceCatalog.actionsFor k2 = []) ∧
    ((∀ s a, s ≠ [] → a ≠ [] → (58 : Nat) ∉ s →
        (∀ k2 ∈ svcTargets emptyServiceCatalog (lowerStr s),
          emptyServiceCatalog.actionsFor k2 = []) →
        expand_single_pattern emptyServiceCatalog (s ++ 58 :: a) = .ok []) ∧
      (∀ s, ¬((42 : Nat) ∈ lowerStr s ∨ (63 : Nat) ∈ lowerStr s) →
        lowerStr s = lowerStr (str "Empty") →
        ∀ k2 ∈ svcTargets emptyServiceCatalog (lowerStr s),
          emptyServiceCatalog.actionsFor k2 = []) ∧
      (∀ a, mkAction (str "Empty") a ∉ get_all_actions emptyServiceCatalog)) :=
  ⟨by decide, by decide, by decide,
    c10_empty_service emptyServiceCatalog (str "Empty") (by decide) (by decide)
      (by decide)⟩

/-! ### Claim C7 -/

/-- With pairwise case-insensitively distinct action names, `find?` locates
exactly the action whose lowered name equals the pattern. -/
theorem find?_first_lower {acts : List Str} {ap act : Str}
    (hnd : (acts.map lowerStr).Nodup) (hmem : act ∈ acts)
    (heq : lowerStr act = ap) :
    acts.find? (fun b => lowerStr b == ap) = some act := by
  induction acts with
  | nil => cases hmem
  | cons b rest ih =>
    rw [List.map_cons, List.nodup_cons] at hnd
    rcases List.mem_cons.mp hmem with rfl | hmem2
    · rw [List.find?_cons_of_pos _ (by simp [heq])]
    · have hb : ¬((fun b => lowerStr b == ap) b = true) := by
        simp only [beq_iff_eq]
        intro hbe
        exact hnd.1 (by rw [hbe, ← heq]; exact List.mem_map_of_mem _ hmem2)
      rw [List.find?_cons_of_neg (p := fun b => lowerStr b == ap) rest hb]
      exact ih hnd.2 hmem2

/-- **C7 counterexample**: against a catalog where service `S3` has the two
actions `GetObject` and `GETOBJECT`, the wildcard-free pattern `s3:getobject`
returns only `S3:GetObject`: the action `GETOBJECT` has a lower-cased name
equal to the lower-cased action part yet is not included, because the loop
`break`s after the first exact match — refuting the claim's "if and only if". -/
theorem c7_counterexample :
    expand_single_pattern dupCatalog (str "s3:getobject") =
      .ok [str "S3:GetObject"] ∧
    str "GETOBJECT" ∈ dupCatalog.actionsFor (str "S3") ∧
    lowerStr (str "GETOBJECT") = lowerStr (str "getobject") ∧
    mkAction (str "S3") (str "GETOBJECT") ∉ [str "S3:GetObject"] := by decide

/-- **C7 (amended)**: for a wildcard-free action part, inclusion in the result
always implies that the action's lower-cased name equals the lower-cased
action part exactly — never a prefix or substring match; the converse holds
for every target service whose action names are pairwise distinct after
lower-casing (the loop adds only the first exact match and `break`s, so only
a later case-duplicate of an earlier action can be left out). -/
theorem c7_exact_match_iff (C : Catalog) (s a : Str)
    (hs : s ≠ []) (ha : a ≠ []) (hcs : (58 : Nat) ∉ s)
    (hw : ¬((42 : Nat) ∈ lowerStr a ∨ (63 : Nat) ∈ lowerStr a))
    (hkeys : ∀ k2 ∈ C.serviceKeys, (58 : Nat) ∉ k2)
    (res : List Str) (hres : expand_single_pattern C (s ++ 58 :: a) = .ok res) :
    ∀ k ∈ svcTargets C (lowerStr s), ∀ act ∈ C.actionsFor k,
      (mkAction k act ∈ res → lowerStr act = lowerStr a) ∧
      (((C.actionsFor k).map lowerStr).Nodup → lowerStr act = lowerStr a →
        mkAction k act ∈ res) := by
  have hastar : lowerStr a ≠ [42] := by
    intro hh
    exact hw (Or.inl (by rw [hh]; exact List.mem_cons_self _ _))
  rw [expand_single_pattern_split hs ha hcs] at hres
  have hres2 : res = expandCore C (lowerStr s) (lowerStr a) := by
    cases hres
    rfl
  subst hres2
  intro k hk act hact
  unfold expandCore
  by_cases hts : svcTargets C (lowerStr s) = []
  · rw [hts] at hk
    cases hk
  · rw [if_neg hts]
    constructor
    · intro hmem
      rcases foldl_mem_sub (addForService C (lowerStr a))
          (fun k2 x => ∃ a2,
            (C.actionsFor k2).find? (fun b => lowerStr b == lowerStr a) = some a2 ∧
            x = mkAction k2 a2)
          (fun ac k2 x hx => (mem_addForService_exact hastar hw).mp hx) _ _ _ hmem with
        h | ⟨k2, hk2, a2, hfind, heq⟩
      · cases h
      · obtain ⟨hkk, haa⟩ := mkAction_inj (hkeys k (svcTargets_subset hk))
          (hkeys k2 (svcTargets_subset hk2)) heq
        subst hkk
        subst haa
        have hsome := List.find?_some hfind
        simpa using hsome
    · intro hnd heq
      refine foldl_mem_intro (addForService C (lowerStr a))
        (fun k2 x => k = k2 ∧ x = mkAction k act)
        (fun ac k2 x hx => mem_addForService_mono hx)
        (fun ac k2 x hx => ?_) _ _ _ (Or.inr ⟨k, hk, rfl, rfl⟩)
      obtain ⟨rfl, rfl⟩ := hx
      exact (mem_addForService_exact hastar hw).mpr
        (Or.inr ⟨act, find?_first_lower hnd hact heq, rfl⟩)

theorem c7_exact_match_iff_witness :
    str "s3" ≠ [] ∧ str "getobject" ≠ [] ∧ (58 : Nat) ∉ str "s3" ∧
    ¬((42 : Nat) ∈ lowerStr (str "getobject") ∨
        (63 : Nat) ∈ lowerStr (str "getobject")) ∧
    (∀ k2 ∈ mockCatalog.serviceKeys, (58 : Nat) ∉ k2) ∧
    expand_single_pattern mockCatalog (str "s3" ++ 58 :: str "getobject") =
      .ok [str "S3:GetObject"] ∧
    (∀ k ∈ svcTargets mockCatalog (lowerStr (str "s3")),
      ∀ act ∈ mockCatalog.actionsFor k,
        (mkAction k act ∈ [str "S3:GetObject"] →
          lowerStr act = lowerStr (str "getobject")) ∧
        (((mockCatalog.actionsFor k).map lowerStr).Nodup →
          lowerStr act = lowerStr (str "getobject") →
          mkAction k act ∈ [str "S3:GetObject"])) :=
  ⟨by decide, by decide, by decide, by decide, by decide, by decide,
    c7_exact_match_iff mockCatalog (str "s3") (str "getobject") (by decide)
      (by decide) (by decide) (by decide) (by decide)
      [str "S3:GetObject"] (by decide)⟩

/-! ### Claim C4 (policy-aware expansion, modelled from the spec) -/

/-- Every error of the engine carries the offending pattern. -/
theorem expand_single_pattern_error_pattern {C : Catalog} {p : Str}
    {e : InvalidActionPatternError}
    (h : expand_single_pattern C p = .error e) : e.pattern = p := by
  unfold expand_single_pattern at h
  split at h
  · cases h
  · split at h
    · cases h
      rfl
    · split at h
      · cases h
        rfl
      · cases h

theorem collectWithPolicy_raise_error {C : Catalog} {pre : List Str} {bad : Str}
    {e : InvalidActionPatternError}
    (hpre : ∀ p ∈ pre, ∃ s, expand_single_pattern C p = .ok s)
    (hbad : expand_single_pattern C bad = .error e) :
    ∀ (acc post : List Str),
      collectWithPolicy C .raiseError acc (pre ++ bad :: post) = .error e := by
  induction pre with
  | nil =>
    intro acc post
    simp only [List.nil_append, collectWithPolicy]
    rw [hbad]
  | cons p rest ih =>
    intro acc post
    obtain ⟨s, hs⟩ := hpre p (List.mem_cons_self _ _)
    simp only [List.cons_append, collectWithPolicy]
    rw [hs]
    exact ih (fun q hq => hpre q (List.mem_cons_of_mem _ hq)) _ _

theorem collectWithPolicy_remove_eq {C : Catalog} {bad : Str}
    {e : InvalidActionPatternError} {post : List Str}
    (hbad : expand_single_pattern C bad = .error e) :
    ∀ (pre acc : List Str),
      collectWithPolicy C .remove acc (pre ++ bad :: post) =
        collectWithPolicy C .remove acc (pre ++ post) := by
  intro pre
  induction pre with
  | nil =>
    intro acc
    simp only [List.nil_append, collectWithPolicy]
    rw [hbad]
  | cons p rest ih =>
    intro acc
    simp only [List.cons_append, collectWithPolicy]
    cases expand_single_pattern C p with
    | error e2 => exact ih acc
    | ok s => exact ih _

theorem collectWithPolicy_keep_mem {C : Catalog} :
    ∀ {ps acc u : List Str}, collectWithPolicy C .keep acc ps = .ok u →
      ∀ x, x ∈ u ↔ x ∈ acc ∨
        (∃ p ∈ ps, ∃ t, expand_single_pattern C p = .ok t ∧ x ∈ t) ∨
        (∃ p ∈ ps, (∃ e, expand_single_pattern C p = .error e) ∧ x = p) := by
  intro ps
  induction ps with
  | nil =>
    intro acc u h x
    cases h
    simp
  | cons p rest ih =>
    intro acc u h x
    simp only [collectWithPolicy] at h
    cases hp : expand_single_pattern C p with
    | ok t =>
      rw [hp] at h
      rw [ih h x, foldl_mem_iff insertS (fun a x => x = a) (fun _ _ _ => mem_insertS)]
      constructor
      · rintro ((hx | ⟨a, ha, rfl⟩) | ⟨q, hq, w, hw, hx⟩ | ⟨q, hq, he, rfl⟩)
        · exact Or.inl hx
        · exact Or.inr (Or.inl ⟨p, List.mem_cons_self _ _, t, hp, ha⟩)
        · exact Or.inr (Or.inl ⟨q, List.mem_cons_of_mem _ hq, w, hw, hx⟩)
        · exact Or.inr (Or.inr ⟨x, List.mem_cons_of_mem _ hq, he, rfl⟩)
      · rintro (hx | ⟨q, hq, w, hw, hx⟩ | ⟨q, hq, ⟨e, he⟩, rfl⟩)
        · exact Or.inl (Or.inl hx)
        · rcases List.mem_cons.mp hq with rfl | hq
          · rw [hp] at hw
            cases hw
            exact Or.inl (Or.inr ⟨x, hx, rfl⟩)
          · exact Or.inr (Or.inl ⟨q, hq, w, hw, hx⟩)
        · rcases List.mem_cons.mp hq with rfl | hq
          · rw [hp] at he
            cases he
          · exact Or.inr (Or.inr ⟨x, hq, ⟨e, he⟩, rfl⟩)
    | error e2 =>
      rw [hp] at h
      rw [ih h x, mem_insertS]
      constructor
      · rintro ((hx | rfl) | ⟨q, hq, w, hw, hx⟩ | ⟨q, hq, he, rfl⟩)
        · exact Or.inl hx
        · exact Or.inr (Or.inr ⟨x, List.mem_cons_self _ _, ⟨e2, hp⟩, rfl⟩)
        · exact Or.inr (Or.inl ⟨q, List.mem_cons_of_mem _ hq, w, hw, hx⟩)
        · exact Or.inr (Or.inr ⟨x, List.mem_cons_of_mem _ hq, he, rfl⟩)
      · rintro (hx | ⟨q, hq, w, hw, hx⟩ | ⟨q, hq, ⟨e3, he⟩, rfl⟩)
        · exact Or.inl (Or.inl hx)
        · rcases List.mem_cons.mp hq with rfl | hq
          · rw [hp] at hw
            cases hw
          · exact Or.inr (Or.inl ⟨q, hq, w, hw, hx⟩)
        · rcases List.mem_cons.mp hq with rfl | hq
          · exact Or.inl (Or.inr rfl)
          · exact Or.inr (Or.inr ⟨x, hq, ⟨e3, he⟩, rfl⟩)

theorem collectWithPolicy_remove_mem {C : Catalog} :
    ∀ {ps acc u : List Str}, collectWithPolicy C .remove acc ps = .ok u →
      ∀ x, x ∈ u ↔ x ∈ acc ∨
        ∃ p ∈ ps, ∃ t, expand_single_pattern C p = .ok t ∧ x ∈ t := by
  intro ps
  induction ps with
  | nil =>
    intro acc u h x
    cases h
    simp
  | cons p rest ih =>
    intro acc u h x
    simp only [collectWithPolicy] at h
    cases hp : expand_single_pattern C p with
    | ok t =>
      rw [hp] at h
      rw [ih h x, foldl_mem_iff insertS (fun a x => x = a) (fun _ _ _ => mem_insertS)]
      constructor
      · rintro ((hx | ⟨a, ha, rfl⟩) | ⟨q, hq, w, hw, hx⟩)
        · exact Or.inl hx
        · exact Or.inr ⟨p, List.mem_cons_self _ _, t, hp, ha⟩
        · exact Or.inr ⟨q, List.mem_cons_of_mem _ hq, w, hw, hx⟩
      · rintro (hx | ⟨q, hq, w, hw, hx⟩)
        · exact Or.inl (Or.inl hx)
        · rcases List.mem_cons.mp hq with rfl | hq
          · rw [hp] at hw
            cases hw
            exact Or.inl (Or.inr ⟨x, hx, rfl⟩)
          · exact Or.inr ⟨q, hq, w, hw, hx⟩
    | error e2 =>
      rw [hp] at h
      rw [ih h x]
      constructor
      · rintro (hx | ⟨q, hq, w, hw, hx⟩)
        · exact Or.inl hx
        · exact Or.inr ⟨q, List.mem_cons_of_mem _ hq, w, hw, hx⟩
      · rintro (hx | ⟨q, hq, w, hw, hx⟩)
        · exact Or.inl hx
        · rcases List.mem_cons.mp hq with rfl | hq
          · rw [hp] at hw
            cases hw
          · exact Or.inr ⟨q, hq, w, hw, hx⟩

/-- **C4** (spec-modelled): on a list with one malformed pattern among valid
ones, `raiseError` propagates an error carrying the malformed pattern,
`remove` returns exactly the result for the list without it, and `keep`
returns that result plus the literal unexpanded malformed string, sorted. -/
theorem c4_invalid_handling (C : Catalog) (pre post : List Str) (bad : Str)
    (e : InvalidActionPatternError)
    (hpre : ∀ p ∈ pre, ∃ s, expand_single_pattern C p = .ok s)
    (hpost : ∀ p ∈ post, ∃ s, expand_single_pattern C p = .ok s)
    (hbad : expand_single_pattern C bad = .error e) :
    (expand_actions_p C .raiseError (pre ++ bad :: post) = .error e ∧
      e.pattern = bad) ∧
    expand_actions_p C .remove (pre ++ bad :: post) =
      expand_actions_p C .remove (pre ++ post) ∧
    (∀ l l2, expand_actions_p C .keep (pre ++ bad :: post) = .ok l →
      expand_actions_p C .remove (pre ++ post) = .ok l2 →
      List.Sorted strLe l ∧ (∀ x, x ∈ l ↔ x ∈ l2 ∨ x = bad)) := by
  refine ⟨⟨?_, expand_single_pattern_error_pattern hbad⟩, ?_, ?_⟩
  · unfold expand_actions_p
    rw [collectWithPolicy_raise_error hpre hbad [] post]
  · unfold expand_actions_p
    rw [collectWithPolicy_remove_eq hbad pre []]
  · intro l l2 hkeep hrem
    unfold expand_actions_p at hkeep hrem
    cases hck : collectWithPolicy C .keep [] (pre ++ bad :: post) with
    | error e2 =>
      rw [hck] at hkeep
      cases hkeep
    | ok u =>
      rw [hck] at hkeep
      cases hkeep
      cases hcr : collectWithPolicy C .remove [] (pre ++ post) with
      | error e2 =>
        rw [hcr] at hrem
        cases hrem
      | ok u2 =>
        rw [hcr] at hrem
        cases hrem
        refine ⟨List.sorted_insertionSort strLe u, fun x => ?_⟩
        rw [List.mem_insertionSort, List.mem_insertionSort,
          collectWithPolicy_keep_mem hck x, collectWithPolicy_remove_mem hcr x]
        have hvalid : ∀ p ∈ pre ++ post, ∃ s, expand_single_pattern C p = .ok s := by
          intro p hp
          rcases List.mem_append.mp hp with hp | hp
          · exact hpre p hp
          · exact hpost p hp
        constructor
        · rintro (hx | ⟨q, hq, w, hw, hx⟩ | ⟨q, hq, ⟨e3, he⟩, rfl⟩)
          · cases hx
          · rcases List.mem_append.mp hq with hq | hq
            · exact Or.inl (Or.inr ⟨q, List.mem_append_left _ hq, w, hw, hx⟩)
            · rcases List.mem_cons.mp hq with rfl | hq
              · rw [hbad] at hw
                cases hw
              · exact Or.inl (Or.inr ⟨q, List.mem_append_right _ hq, w, hw, hx⟩)
          · rcases List.mem_append.mp hq with hq | hq
            · obtain ⟨s, hs⟩ := hpre x hq
              rw [hs] at he
              cases he
            · rcases List.mem_cons.mp hq with rfl | hq
              · exact Or.inr rfl
              · obtain ⟨s, hs⟩ := hpost x hq
                rw [hs] at he
                cases he
        · rintro ((hx | ⟨q, hq, w, hw, hx⟩) | rfl)
          · cases hx
          · rcases List.mem_append.mp hq with hq | hq
            · exact Or.inr (Or.inl ⟨q, List.mem_append_left _ hq, w, hw, hx⟩)
            · exact Or.inr (Or.inl
                ⟨q, List.mem_append_right _ (List.mem_cons_of_mem _ hq), w, hw, hx⟩)
          · exact Or.inr (Or.inr
              ⟨x, List.mem_append_right _ (List.mem_cons_self _ _), ⟨e, hbad⟩, rfl⟩)

theorem c4_invalid_handling_witness :
    (∀ p ∈ [str "s3:Get*"], ∃ s, expand_single_pattern mockCatalog p = .ok s) ∧
    (∀ p ∈ [str "sts:AssumeRole"], ∃ s, expand_single_pattern mockCatalog p = .ok s) ∧
    expand_single_pattern mockCatalog (str "invalid-format") =
      .error ⟨str "invalid-format", msgMissingColon⟩ ∧
    ((expand_actions_p mockCatalog .raiseError
          ([str "s3:Get*"] ++ str "invalid-format" :: [str "sts:AssumeRole"]) =
        .error ⟨str "invalid-format", msgMissingColon⟩ ∧
      InvalidActionPatternError.pattern ⟨str "invalid-format", msgMissingColon⟩ =
        str "invalid-format") ∧
      expand_actions_p mockCatalog .remove
          ([str "s3:Get*"] ++ str "invalid-format" :: [str "sts:AssumeRole"]) =
        expand_actions_p mockCatalog .remove
          ([str "s3:Get*"] ++ [str "sts:AssumeRole"]) ∧
      (∀ l l2, expand_actions_p mockCatalog .keep
          ([str "s3:Get*"] ++ str "invalid-format" :: [str "sts:AssumeRole"]) = .ok l →
        expand_actions_p mockCatalog .remove
          ([str "s3:Get*"] ++ [str "sts:AssumeRole"]) = .ok l2 →
        List.Sorted strLe l ∧ (∀ x, x ∈ l ↔ x ∈ l2 ∨ x = str "invalid-format"))) := by
  have h1 : ∀ p ∈ [str "s3:Get*"], ∃ s, expand_single_pattern mockCatalog p = .ok s := by
    intro p hp
    rw [List.mem_singleton] at hp
    subst hp
    exact ⟨[str "S3:GetObject", str "S3:GetBucket"], by decide⟩
  have h2 : ∀ p ∈ [str "sts:AssumeRole"],
      ∃ s, expand_single_pattern mockCatalog p = .ok s := by
    intro p hp
    rw [List.mem_singleton] at hp
    subst hp
    exact ⟨[str "STS:AssumeRole"], by decide⟩
  have h3 : expand_single_pattern mockCatalog (str "invalid-format") =
      .error ⟨str "invalid-format", msgMissingColon⟩ := by decide
  exact ⟨h1, h2, h3,
    c4_invalid_handling mockCatalog [str "s3:Get*"] [str "sts:AssumeRole"]
      (str "invalid-format") ⟨str "invalid-format", msgMissingColon⟩ h1 h2 h3⟩

/-! ### Claim C9 (policy rewriter, modelled from the spec) -/

theorem rewriteStmt_frame {C : Catalog} {hA hNA : InvalidActionHandling} {i : Nat} :
    ∀ {fs fs2 : List (Str × JVal)}, rewriteStmt C hA hNA i fs = .ok fs2 →
      fs2.map Prod.fst = fs.map Prod.fst ∧
      ∀ m r, fs.get? m = some r → r.1 ≠ str "Action" → r.1 ≠ str "NotAction" →
        fs2.get? m = some r := by
  intro fs
  induction fs with
  | nil =>
    intro fs2 h
    cases h
    exact ⟨rfl, fun m r hr _ _ => by simp at hr⟩
  | cons q rest ih =>
    intro fs2 h
    obtain ⟨key, v⟩ := q
    simp only [rewriteStmt] at h
    by_cases hkey : key = str "Action" ∨ key = str "NotAction"
    · rw [if_pos hkey] at h
      split at h
      · cases h
      · split at h
        · cases h
        · split at h
          · cases h
          · rename_i rest2 hrest
            cases h
            obtain ⟨ih1, ih2⟩ := ih hrest
            refine ⟨by simp [ih1], ?_⟩
            intro m r hr h1 h2
            cases m with
            | zero =>
              simp only [List.get?_cons_zero, Option.some.injEq] at hr
              subst hr
              rcases hkey with hk | hk
              · exact absurd hk h1
              · exact absurd hk h2
            | succ m2 =>
              simp only [List.get?_cons_succ] at hr ⊢
              exact ih2 m2 r hr h1 h2
    · rw [if_neg hkey] at h
      cases hrest : rewriteStmt C hA hNA i rest with
      | error e =>
        rw [hrest] at h
        cases h
      | ok rest2 =>
        rw [hrest] at h
        cases h
        obtain ⟨ih1, ih2⟩ := ih hrest
        refine ⟨by simp [ih1], ?_⟩
        intro m r hr h1 h2
        cases m with
        | zero =>
          simp only [List.get?_cons_zero, Option.some.injEq] at hr ⊢
          exact hr
        | succ m2 =>
          simp only [List.get?_cons_succ] at hr ⊢
          exact ih2 m2 r hr h1 h2

theorem rewriteStmts_frame {C : Catalog} {hA hNA : InvalidActionHandling} :
    ∀ {sts : List JVal} {i : Nat} {sts2 : List JVal},
      rewriteStmts C hA hNA i sts = .ok sts2 →
      sts.length = sts2.length ∧
      ∀ j st st2, sts.get? j = some st → sts2.get? j = some st2 →
        ∃ fs fs2, st = .jobj fs ∧ st2 = .jobj fs2 ∧
          rewriteStmt C hA hNA (i + j) fs = .ok fs2 := by
  intro sts
  induction sts with
  | nil =>
    intro i sts2 h
    cases h
    exact ⟨rfl, fun j st st2 hst _ => by simp at hst⟩
  | cons st rest ih =>
    intro i sts2 h
    cases st with
    | jobj fs =>
      simp only [rewriteStmts] at h
      cases hst : rewriteStmt C hA hNA i fs with
      | error e =>
        rw [hst] at h
        cases h
      | ok fs2 =>
        rw [hst] at h
        cases hrest : rewriteStmts C hA hNA (i + 1) rest with
        | error e =>
          rw [hrest] at h
          cases h
        | ok rest2 =>
          rw [hrest] at h
          cases h
          obtain ⟨ih1, ih2⟩ := ih hrest
          refine ⟨by simp [ih1], ?_⟩
          intro j s1 s2 h1 h2
          cases j with
          | zero =>
            simp only [List.get?_cons_zero, Option.some.injEq] at h1 h2
            subst h1
            subst h2
            exact ⟨fs, fs2, rfl, rfl, by simpa using hst⟩
          | succ j2 =>
            simp only [List.get?_cons_succ] at h1 h2
            obtain ⟨fs3, fs4, e1, e2, e3⟩ := ih2 j2 s1 s2 h1 h2
            refine ⟨fs3, fs4, e1, e2, ?_⟩
            rw [show i + (j2 + 1) = (i + 1) + j2 from by omega]
            exact e3
    | jstr s =>
      simp only [rewriteStmts] at h
      cases h
    | jnum n =>
      simp only [rewriteStmts] at h
      cases h
    | jbool b =>
      simp only [rewriteStmts] at h
      cases h
    | jnull =>
      simp only [rewriteStmts] at h
      cases h
    | jarr l =>
      simp only [rewriteStmts] at h
      cases h

theorem rewriteDoc_frame {C : Catalog} {hA hNA : InvalidActionHandling} :
    ∀ {doc doc2 : List (Str × JVal)}, rewriteDoc C hA hNA doc = .ok doc2 →
      doc2.map Prod.fst = doc.map Prod.fst ∧
      (∀ m q, doc.get? m = some q → q.1 ≠ str "Statement" → doc2.get? m = some q) ∧
      (∀ m q q2, doc.get? m = some q → doc2.get? m = some q2 →
        q.1 = str "Statement" →
        ∃ sts sts2, q.2 = .jarr sts ∧ q2.2 = .jarr sts2 ∧
          rewriteStmts C hA hNA 0 sts = .ok sts2) := by
  intro doc
  induction doc with
  | nil =>
    intro doc2 h
    cases h
    exact ⟨rfl, fun m q hq _ => by simp at hq, fun m q q2 hq _ _ => by simp at hq⟩
  | cons q rest ih =>
    intro doc2 h
    obtain ⟨key, v⟩ := q
    simp only [rewriteDoc] at h
    by_cases hkey : key = str "Statement"
    · rw [if_pos hkey] at h
      split at h
      · rename_i stmts
        split at h
        · cases h
        · rename_i stmts2 hsts
          split at h
          · cases h
          · rename_i rest2 hrest
            cases h
            obtain ⟨ih1, ih2, ih3⟩ := ih hrest
            refine ⟨by simp [ih1], ?_, ?_⟩
            · intro m q hq hne
              cases m with
              | zero =>
                simp only [List.get?_cons_zero, Option.some.injEq] at hq
                subst hq
                exact absurd hkey hne
              | succ m2 =>
                simp only [List.get?_cons_succ] at hq ⊢
                exact ih2 m2 q hq hne
            · intro m q q2 hq hq2 hst
              cases m with
              | zero =>
                simp only [List.get?_cons_zero, Option.some.injEq] at hq hq2
                subst hq
                subst hq2
                exact ⟨stmts, stmts2, rfl, rfl, hsts⟩
              | succ m2 =>
                simp only [List.get?_cons_succ] at hq hq2
                exact ih3 m2 q q2 hq hq2 hst
      · cases h
    · rw [if_neg hkey] at h
      cases hrest : rewriteDoc C hA hNA rest with
      | error e =>
        rw [hrest] at h
        cases h
      | ok rest2 =>
        rw [hrest] at h
        cases h
        obtain ⟨ih1, ih2, ih3⟩ := ih hrest
        refine ⟨by simp [ih1], ?_, ?_⟩
        · intro m q hq hne
          cases m with
          | zero =>
            simp only [List.get?_cons_zero, Option.some.injEq] at hq ⊢
            exact hq
          | succ m2 =>
            simp only [List.get?_cons_succ] at hq ⊢
            exact ih2 m2 q hq hne
        · intro m q q2 hq hq2 hst
          cases m with
          | zero =>
            simp only [List.get?_cons_zero, Option.some.injEq] at hq hq2
            subst hq
            subst hq2
            exact absurd hst hkey
          | succ m2 =>
            simp only [List.get?_cons_succ] at hq hq2
            exact ih3 m2 q q2 hq hq2 hst

/-- **C9** (spec-modelled): `expand_policy_actions` is a value-to-value
transform: on success the output document has the same top-level fields in the
same order, every field other than `Statement` is unchanged, the statement
sequence keeps its length, every statement keeps its fields in order, and every
statement field other than `Action`/`NotAction` is unchanged.  In this purely
functional model the input document value is immutable, matching the
no-mutation requirement. -/
theorem c9_policy_rewriter_frame (C : Catalog) (hA hNA : InvalidActionHandling)
    (doc doc2 : List (Str × JVal))
    (h : expand_policy_actions C hA hNA doc = .ok doc2) :
    doc2.map Prod.fst = doc.map Prod.fst ∧
    (∀ m q, doc.get? m = some q → q.1 ≠ str "Statement" → doc2.get? m = some q) ∧
    (∀ m q q2, doc.get? m = some q → doc2.get? m = some q2 →
      q.1 = str "Statement" →
      ∃ sts sts2, q.2 = .jarr sts ∧ q2.2 = .jarr sts2 ∧ sts.length = sts2.length ∧
        ∀ j st st2, sts.get? j = some st → sts2.get? j = some st2 →
          ∃ fs fs2, st = .jobj fs ∧ st2 = .jobj fs2 ∧
            fs2.map Prod.fst = fs.map Prod.fst ∧
            ∀ m2 r, fs.get? m2 = some r → r.1 ≠ str "Action" →
              r.1 ≠ str "NotAction" → fs2.get? m2 = some r) := by
  unfold expand_policy_actions at h
  split at h
  · obtain ⟨h1, h2, h3⟩ := rewriteDoc_frame h
    refine ⟨h1, h2, ?_⟩
    intro m q q2 hq hq2 hkey
    obtain ⟨sts, sts2, e1, e2, hsts⟩ := h3 m q q2 hq hq2 hkey
    obtain ⟨hlen, hstmts⟩ := rewriteStmts_frame hsts
    refine ⟨sts, sts2, e1, e2, hlen, ?_⟩
    intro j st st2 hj hj2
    obtain ⟨fs, fs2, f1, f2, hfs⟩ := hstmts j st st2 hj hj2
    obtain ⟨g1, g2⟩ := rewriteStmt_frame hfs
    exact ⟨fs, fs2, f1, f2, g1, g2⟩
  · cases h

theorem c9_policy_rewriter_frame_witness :
    expand_policy_actions mockCatalog .remove .keep samplePolicyDoc =
      .ok samplePolicyDocOut ∧
    (samplePolicyDocOut.map Prod.fst = samplePolicyDoc.map Prod.fst ∧
      (∀ m q, samplePolicyDoc.get? m = some q → q.1 ≠ str "Statement" →
        samplePolicyDocOut.get? m = some q) ∧
      (∀ m q q2, samplePolicyDoc.get? m = some q →
        samplePolicyDocOut.get? m = some q2 → q.1 = str "Statement" →
        ∃ sts sts2, q.2 = .jarr sts ∧ q2.2 = .jarr sts2 ∧
          sts.length = sts2.length ∧
          ∀ j st st2, sts.get? j = some st → sts2.get? j = some st2 →
            ∃ fs fs2, st = .jobj fs ∧ st2 = .jobj fs2 ∧
              fs2.map Prod.fst = fs.map Prod.fst ∧
              ∀ m2 r, fs.get? m2 = some r → r.1 ≠ str "Action" →
                r.1 ≠ str "NotAction" → fs2.get? m2 = some r)) :=
  ⟨rfl, c9_policy_rewriter_frame mockCatalog .remove .keep
    samplePolicyDoc samplePolicyDocOut rfl⟩

end PyIamExpand
